import Mathlib

/-!
Verification of the botplayer core against its specification.

The Python source is shallowly embedded: every definition below translates a
function of `src/core` or `src/main.py` (the doc comment of each definition
names its source symbol).  Machine/OS effects are made explicit:
files are lists of bytes, the sqlite tables are lists of rows, the file system
is a list of paths, and Python's stable `sorted` is an insertion sort.
-/

namespace BotPlayer

/-! ## Stable sorting (model of Python's `sorted`)

Python's `sorted(xs, key=k, reverse=True)` is a stable sort: elements with
equal keys keep their input order, also with `reverse=True`.  `sInsert`/`sSort`
implement a stable insertion sort for a boolean relation `r`, where `r a b`
means "`a` may be placed (weakly) before `b`". -/

/-- Insert `x` in front of the first element `y` with `r x y`.  Stability: `x`
stands for an element occurring earlier in the input than everything in `l`. -/
def sInsert {α : Type} (r : α → α → Bool) (x : α) : List α → List α
  | [] => [x]
  | y :: ys => if r x y then x :: y :: ys else y :: sInsert r x ys

/-- Stable insertion sort by the boolean relation `r`. -/
def sSort {α : Type} (r : α → α → Bool) : List α → List α
  | [] => []
  | x :: xs => sInsert r x (sSort r xs)

theorem sInsert_perm {α : Type} (r : α → α → Bool) (x : α) (l : List α) :
    (sInsert r x l).Perm (x :: l) := by
  induction l with
  | nil => simp [sInsert]
  | cons y ys ih =>
    by_cases h : r x y = true
    · simp [sInsert, h]
    · simp only [sInsert, h, if_false, Bool.false_eq_true]
      exact (List.Perm.cons y ih).trans (List.Perm.swap x y ys)

theorem sSort_perm {α : Type} (r : α → α → Bool) (l : List α) :
    (sSort r l).Perm l := by
  induction l with
  | nil => simp [sSort]
  | cons x xs ih =>
    exact ((sInsert_perm r x (sSort r xs)).trans (List.Perm.cons x ih))

theorem mem_sInsert {α : Type} (r : α → α → Bool) (x a : α) (l : List α) :
    a ∈ sInsert r x l ↔ a = x ∨ a ∈ l := by
  constructor
  · intro h
    have hm := (sInsert_perm r x l).mem_iff.mp h
    rcases List.mem_cons.mp hm with hc | hc
    · exact Or.inl hc
    · exact Or.inr hc
  · intro h
    exact (sInsert_perm r x l).mem_iff.mpr (by simpa using h)

theorem pairwise_sInsert {α : Type} (r : α → α → Bool)
    (total : ∀ a b, r a b = true ∨ r b a = true)
    (trans : ∀ a b c, r a b = true → r b c = true → r a c = true)
    (x : α) (l : List α) (h : l.Pairwise (fun a b => r a b = true)) :
    (sInsert r x l).Pairwise (fun a b => r a b = true) := by
  induction l with
  | nil => simp [sInsert]
  | cons y ys ih =>
    rcases List.pairwise_cons.mp h with ⟨hy, hys⟩
    by_cases hxy : r x y = true
    · simp only [sInsert, hxy, if_true]
      refine List.pairwise_cons.mpr ⟨?_, h⟩
      intro b hb
      rcases List.mem_cons.mp hb with rfl | hb
      · exact hxy
      · exact trans x y b hxy (hy b hb)
    · have hyx : r y x = true := (total x y).resolve_left hxy
      simp only [sInsert, hxy, if_false, Bool.false_eq_true]
      refine List.pairwise_cons.mpr ⟨?_, ih hys⟩
      intro b hb
      rcases (mem_sInsert r x b ys).mp hb with rfl | hb
      · exact hyx
      · exact hy b hb

theorem pairwise_sSort {α : Type} (r : α → α → Bool)
    (total : ∀ a b, r a b = true ∨ r b a = true)
    (trans : ∀ a b c, r a b = true → r b c = true → r a c = true)
    (l : List α) : (sSort r l).Pairwise (fun a b => r a b = true) := by
  induction l with
  | nil => simp [sSort]
  | cons x xs ih => exact pairwise_sInsert r total trans x (sSort r xs) ih

/-! ## Content hash (`AudioCacheManager._calculate_hash`)

The Python function feeds selected portions of the file to an MD5 digest and
returns the hex digest.  MD5 is applied to the concatenation of the chunks
read, so the digest is determined by those bytes; `calculateHash` returns the
exact byte sequence fed to the digest (the MD5 compression itself is an
injective-by-intent external function and is not modelled). -/

/-- Chunk size used by `_calculate_hash` (8 KiB). -/
def chunkSize : Nat := 8192

/-- Bytes fed to the MD5 digest by `AudioCacheManager._calculate_hash`:
the first 8 KiB always; when `file_size > 3 * 8192` additionally the 8 KiB
starting at `file_size // 2` (`f.seek(file_size // 2); f.read(8192)`) and the
final 8 KiB (`f.seek(-8192, 2); f.read(8192)`). -/
def calculateHash (file : List Nat) : List Nat :=
  if file.length > chunkSize * 3 then
    file.take chunkSize ++ (file.drop (file.length / 2)).take chunkSize
      ++ (file.drop (file.length - chunkSize)).take chunkSize
  else
    file.take chunkSize

/-! ## String helpers

Python's `str.lower`, substring test (`in`) and `str.endswith` are modelled
over the character data of Lean strings (the built-in `String.toLower` does
not reduce in the kernel). -/

/-- Model of Python `str.lower` (per-character lowering). -/
def lowerStr (s : String) : List Char :=
  s.data.map Char.toLower

/-- Whether `needle` occurs at the head of `hay`. -/
def charsLead (needle hay : List Char) : Bool :=
  match needle, hay with
  | [], _ => true
  | _ :: _, [] => false
  | a :: as, b :: bs => a == b && charsLead as bs

/-- Model of Python's substring test `needle in hay`. -/
def charsHas (needle : List Char) : List Char → Bool
  | [] => charsLead needle []
  | b :: bs => charsLead needle (b :: bs) || charsHas needle bs

/-- Model of Python `hay.endswith(needle)`. -/
def charsEnd (needle hay : List Char) : Bool :=
  charsLead needle.reverse hay.reverse

/-! ## Data model (`src/core/models.py`) -/

/-- Source `PlayMode` enumeration. -/
inductive PlayMode where
  | sequential
  | shuffle
  | repeat_all
  | repeat_one
deriving DecidableEq

/-- Source `PlayerStatus` enumeration. -/
inductive PlayerStatus where
  | idle
  | playing
  | paused
  | buffering
  | error
deriving DecidableEq

/-- Values stored in a `Song.extra` / item mapping.  `MFItem` is the exported
MusicFree item shape (see the importer section); Python `None` is `null`. -/
structure MFItem where
  id : String
  title : String
  artist : String
  album : String
  duration : Int
  platform : String
  artwork : String
  tags : List String
  date : String
  url : String
  /-- Keys merged into the exported item from `song.extra` by
  `item.update(song.extra)` that are read back by the importer.  Only the
  `aid`/`bvid` keys are representable; the round-trip theorems assume empty
  extras, for which the update is a no-op. -/
  aid : Option String
  bvid : Option String
deriving DecidableEq

/-- Scalar-ish values of the `extra` mapping.  `item` holds the
`original_item` recorded by `_parse_musicfree_song`. -/
inductive EVal where
  | null
  | str (s : String)
  | item (it : MFItem)
deriving DecidableEq

/-- Source `Song` dataclass of `models.py`.  The `__post_init__` MD5 fallback for an
empty `id` is modelled by `mkSongId` below. -/
structure Song where
  id : String
  title : String
  artist : String
  album : String := ""
  duration : Int := 0
  platform : String := ""
  artwork : String := ""
  url : String := ""
  tags : List String := []
  date : String := ""
  extra : List (String × EVal) := []
deriving DecidableEq

/-- Modelled from the spec: `Song.__post_init__` derives a stable MD5-based id
from `f"{title}_{artist}_{platform}"` when `id` is empty.  The MD5 digest is
an external stand-in (any function of the same content works for the theorems
below, which only use ids that are already nonempty). -/
def songHashId (title artist platform : String) : String :=
  "md5#" ++ title ++ "_" ++ artist ++ "_" ++ platform

/-- Apply the `__post_init__` id fallback of `Song`. -/
def mkSong (s : Song) : Song :=
  if s.id = "" then { s with id := songHashId s.title s.artist s.platform } else s

/-- Source `Playlist` dataclass of `models.py`. -/
structure Playlist where
  id : String
  name : String
  description : String := ""
  songs : List Song := []
  creator : String := ""
  cover : String := ""
  tags : List String := []
  created_at : String := ""
  updated_at : String := ""
  extra : List (String × EVal) := []
deriving DecidableEq

/-- Modelled from the spec: `Playlist.__post_init__` derives an MD5-based id
from `f"{name}_{creator}"` when `id` is empty (external digest stand-in). -/
def playlistHashId (name creator : String) : String :=
  "md5#" ++ name ++ "_" ++ creator

/-- Apply the `__post_init__` id fallback of `Playlist`. -/
def mkPlaylist (p : Playlist) : Playlist :=
  if p.id = "" then { p with id := playlistHashId p.name p.creator } else p

/-- Source `Playlist.add_song`: append the song unless an equal song (dataclass
equality, i.e. all fields equal) is already present. -/
def addSong (p : Playlist) (s : Song) : Playlist :=
  if s ∈ p.songs then p else { p with songs := p.songs ++ [s] }

/-- Source `PlayQueue` dataclass of `models.py`. -/
structure PlayQueue where
  current_index : Nat := 0
  songs : List Song := []
  play_mode : PlayMode := .sequential
  shuffle_history : List Nat := []
deriving DecidableEq

/-- Source `PlayQueue.get_current_song`. -/
def getCurrentSong (q : PlayQueue) : Option Song :=
  if q.current_index < q.songs.length then q.songs.get? q.current_index else none

/-- Source `PlayQueue.next_song`.  The SHUFFLE branch draws randomness
(`random.choice`); it is outside this deterministic embedding and returns the
current song unchanged here — no claim below depends on it.  The result is the
returned song together with the updated queue. -/
def nextSong (q : PlayQueue) : Option Song × PlayQueue :=
  if q.songs.isEmpty then (none, q)
  else
    match q.play_mode with
    | .repeat_one => (getCurrentSong q, q)
    | .shuffle => (getCurrentSong q, q)
    | .sequential =>
      let ni := q.current_index + 1
      if ni < q.songs.length then
        let q' := { q with current_index := ni }
        (getCurrentSong q', q')
      else
        (none, q)
    | .repeat_all =>
      let q' := { q with current_index := (q.current_index + 1) % q.songs.length }
      (getCurrentSong q', q')

/-- Source `PlayQueue.has_next_song`. -/
def hasNextSong (q : PlayQueue) : Bool :=
  if q.songs.isEmpty then false
  else
    match q.play_mode with
    | .repeat_one => true
    | .shuffle => decide (q.songs.length > 1)
    | .sequential => decide (q.current_index + 1 < q.songs.length)
    | .repeat_all => true

/-- Playback state relevant to the auto-advance claims (a slice of
`PlayerState` in `models.py` / `player.py`). -/
structure GuildState where
  queue : PlayQueue
  status : PlayerStatus := .idle
  current_song : Option Song := none
deriving DecidableEq

/-- Track-ended handling, as performed by `handle_song_finished_sync` together
with `play_next_song_safe` in `src/main.py` (SEQUENTIAL path): when the mode
is SEQUENTIAL, continue iff `has_next_song()`; continuing calls
`queue.next_song()`, sets the current song and plays it (status remains
PLAYING); otherwise `player_core.stop()` sets IDLE and clears the current
song.  REPEAT_ONE replays the current song without touching the queue;
REPEAT_ALL always advances. -/
def trackEnded (st : GuildState) : GuildState :=
  let shouldPlayNext :=
    match st.queue.play_mode with
    | .repeat_one => true
    | .sequential => hasNextSong st.queue
    | .repeat_all => true
    | .shuffle => true
  if shouldPlayNext then
    match st.queue.play_mode with
    | .repeat_one => st
    | _ =>
      let (s?, q') := nextSong st.queue
      match s? with
      | some s => { queue := q', status := .playing, current_song := some s }
      | none =>
        { queue := q', status := .idle, current_song := none }
  else
    { st with status := .idle, current_song := none }

/-! ## Step lemmas for sequential auto-advance -/

theorem trackEnded_seq_adv (songs : List Song) (hist : List Nat) (i : Nat)
    (s0 : PlayerStatus) (c0 : Option Song) (h : i + 1 < songs.length) :
    trackEnded ⟨⟨i, songs, .sequential, hist⟩, s0, c0⟩
      = ⟨⟨i + 1, songs, .sequential, hist⟩, .playing, songs.get? (i + 1)⟩ := by
  have hne : songs.isEmpty = false := by
    cases songs with
    | nil => simp at h
    | cons a l => rfl
  have hs : songs.get? (i + 1) = some (songs.get ⟨i + 1, h⟩) := List.get?_eq_get h
  simp [trackEnded, hasNextSong, nextSong, getCurrentSong, hne, h, hs]

theorem trackEnded_seq_stop (songs : List Song) (hist : List Nat) (i : Nat)
    (s0 : PlayerStatus) (c0 : Option Song) (h : ¬ i + 1 < songs.length) :
    trackEnded ⟨⟨i, songs, .sequential, hist⟩, s0, c0⟩
      = ⟨⟨i, songs, .sequential, hist⟩, .idle, none⟩ := by
  by_cases hne : songs.isEmpty
  · simp [trackEnded, hasNextSong, hne]
  · simp [trackEnded, hasNextSong, nextSong, hne, h]

/-- Claim C4 (counterexample): in Sequential mode with queue length `L = 1`
and current index `i = 0`, one track-ended event (`N = 1`) leaves the current
index at `0`, not `min (i + N) L = 1` as the claim states; the status becomes
Idle although the index never equals the queue length. -/
theorem sequentialAdvanceClaimCounterexample :
    (trackEnded ⟨⟨0, [{ id := "s1", title := "x", artist := "y" }], .sequential, []⟩,
        .playing, none⟩).queue.current_index
      ≠ min (0 + 1) ([{ id := "s1", title := "x", artist := "y" : Song }].length)
    ∧ (trackEnded ⟨⟨0, [{ id := "s1", title := "x", artist := "y" }], .sequential, []⟩,
        .playing, none⟩).status = .idle := by
  constructor
  · rw [trackEnded_seq_stop _ _ _ _ _ (by simp)]
    simp
  · rw [trackEnded_seq_stop _ _ _ _ _ (by simp)]

/-- Claim C4 (amended): in Sequential mode, starting from index `i < L` with
any status, after `N ≥ 1` track-ended events the current index equals
`min (i + N) (L - 1)` — the index never reaches `L`, since `next_song` leaves
it at `L - 1` when there is no next track — and the status is Idle exactly
when `i + N ≥ L`, i.e. exactly when a track-ended event fired at the last
index. -/
theorem sequentialAdvanceTheorem (songs : List Song) (hist : List Nat)
    (s0 : PlayerStatus) (c0 : Option Song) (i N : Nat)
    (hi : i < songs.length) (hN : 1 ≤ N) :
    (trackEnded^[N] ⟨⟨i, songs, .sequential, hist⟩, s0, c0⟩).queue.current_index
        = min (i + N) (songs.length - 1)
    ∧ ((trackEnded^[N] ⟨⟨i, songs, .sequential, hist⟩, s0, c0⟩).status = .idle
        ↔ songs.length ≤ i + N)
    ∧ (trackEnded^[N] ⟨⟨i, songs, .sequential, hist⟩, s0, c0⟩).queue.songs = songs := by
  obtain ⟨M, rfl⟩ : ∃ M, N = M + 1 := ⟨N - 1, by omega⟩
  clear hN
  induction M generalizing i s0 c0 with
  | zero =>
    by_cases h : i + 1 < songs.length
    · rw [Function.iterate_one, trackEnded_seq_adv songs hist i s0 c0 h]
      refine ⟨by simp; omega, by simp; omega, rfl⟩
    · rw [Function.iterate_one, trackEnded_seq_stop songs hist i s0 c0 h]
      refine ⟨by simp; omega, by simp; omega, rfl⟩
  | succ M ih =>
    rw [Function.iterate_succ_apply]
    by_cases h : i + 1 < songs.length
    · rw [trackEnded_seq_adv songs hist i s0 c0 h]
      have := ih .playing (songs.get? (i + 1)) (i + 1) h
      refine ⟨?_, ?_, this.2.2⟩
      · rw [this.1]; omega
      · rw [this.2.1]; omega
    · rw [trackEnded_seq_stop songs hist i s0 c0 h]
      have := ih .idle none i hi
      refine ⟨?_, ?_, this.2.2⟩
      · rw [this.1]; omega
      · rw [this.2.1]; omega

/-- Claim C4 (witness): a concrete run — queue of length 3 starting at index
0; after 2 events the index is 2 and the player is still playing, after 3
events the index stays at 2 and the player is Idle. -/
theorem sequentialAdvanceWitness :
    (trackEnded^[2] ⟨⟨0, [{ id := "a", title := "a", artist := "a" },
        { id := "b", title := "b", artist := "b" },
        { id := "c", title := "c", artist := "c" }], .sequential, []⟩,
      .playing, none⟩).queue.current_index = 2
    ∧ ((trackEnded^[3] ⟨⟨0, [{ id := "a", title := "a", artist := "a" },
        { id := "b", title := "b", artist := "b" },
        { id := "c", title := "c", artist := "c" }], .sequential, []⟩,
      .playing, none⟩).status = .idle) := by
  constructor
  · have := sequentialAdvanceTheorem
      [{ id := "a", title := "a", artist := "a" },
       { id := "b", title := "b", artist := "b" },
       { id := "c", title := "c", artist := "c" }] [] .playing none 0 2
      (by decide) (by decide)
    simpa using this.1
  · have := sequentialAdvanceTheorem
      [{ id := "a", title := "a", artist := "a" },
       { id := "b", title := "b", artist := "b" },
       { id := "c", title := "c", artist := "c" }] [] .playing none 0 3
      (by decide) (by decide)
    exact this.2.1.mpr (by decide)

/-! ## Theorems about the content hash (claim C3) -/

/-- Claim C3 (counterexample): a file of 8193 bytes (strictly between 8 KiB
and 24 KiB) is hashed over its first 8192 bytes only, not over the whole file
as the claim states. -/
theorem calculateHashClaimCounterexample :
    calculateHash (List.replicate 8193 1) = List.replicate 8192 1
    ∧ List.replicate 8192 (1 : Nat) ≠ List.replicate 8193 1 := by
  constructor
  · have hc : ¬ ((List.replicate 8193 (1 : Nat)).length > chunkSize * 3) := by
      rw [List.length_replicate]
      simp [chunkSize]
    rw [calculateHash, if_neg hc, List.take_replicate]
    rw [Nat.min_eq_left (by simp [chunkSize])]
    rfl
  · intro h
    have hlen := congrArg List.length h
    rw [List.length_replicate, List.length_replicate] at hlen
    omega

/-- Claim C3 (amended): the digest input is the whole file only for files of
at most 8 KiB; for files strictly between 8 KiB and 24 KiB (inclusive) only
the first 8 KiB window is hashed; for files over 24 KiB exactly the three
windows `[0..8192)`, `[size/2..size/2+8192)` and `[size-8192..size)` are
hashed (3 · 8192 bytes in total). -/
theorem calculateHashWindows (file : List Nat) :
    (file.length ≤ chunkSize → calculateHash file = file)
    ∧ (chunkSize < file.length → file.length ≤ chunkSize * 3 →
        calculateHash file = file.take chunkSize ∧ calculateHash file ≠ file)
    ∧ (chunkSize * 3 < file.length →
        calculateHash file
          = file.take chunkSize ++ (file.drop (file.length / 2)).take chunkSize
              ++ file.drop (file.length - chunkSize)
        ∧ (calculateHash file).length = 3 * chunkSize) := by
  refine ⟨?_, ?_, ?_⟩
  · intro h
    have hle : file.length ≤ chunkSize * 3 := by simp [chunkSize] at h ⊢; omega
    simp [calculateHash, Nat.not_lt.mpr hle, List.take_of_length_le h]
  · intro h1 h2
    have heq : calculateHash file = file.take chunkSize := by
      simp [calculateHash, Nat.not_lt.mpr h2]
    refine ⟨heq, ?_⟩
    intro hcontra
    rw [heq] at hcontra
    have := congrArg List.length hcontra
    simp [chunkSize] at this h1
    omega
  · intro h
    have hlast : (file.drop (file.length - chunkSize)).take chunkSize
        = file.drop (file.length - chunkSize) := by
      apply List.take_of_length_le
      simp [chunkSize] at h ⊢
      omega
    have heq : calculateHash file
        = file.take chunkSize ++ (file.drop (file.length / 2)).take chunkSize
            ++ file.drop (file.length - chunkSize) := by
      rw [calculateHash, if_pos h, hlast]
    refine ⟨heq, ?_⟩
    have hck : chunkSize = 8192 := rfl
    have hlen : chunkSize * 3 < file.length := h
    rw [heq, List.length_append, List.length_append, List.length_take,
      List.length_take, List.length_drop, List.length_drop]
    rw [hck] at hlen ⊢
    omega

/-- Claim C3 (witness): concrete instantiations of the three ranges — a 100
byte file is hashed whole, a 9000 byte file over its first 8192 bytes, a
25000 byte file over three 8 KiB windows. -/
theorem calculateHashWindowsWitness :
    calculateHash (List.replicate 100 7) = List.replicate 100 7
    ∧ calculateHash (List.replicate 9000 7) = (List.replicate 9000 7).take chunkSize
    ∧ (calculateHash (List.replicate 25000 7)).length = 3 * chunkSize := by
  refine ⟨?_, ?_, ?_⟩
  · exact (calculateHashWindows (List.replicate 100 7)).1
      (by rw [List.length_replicate]; norm_num [chunkSize])
  · exact ((calculateHashWindows (List.replicate 9000 7)).2.1
      (by rw [List.length_replicate]; norm_num [chunkSize])
      (by rw [List.length_replicate]; norm_num [chunkSize])).1
  · exact ((calculateHashWindows (List.replicate 25000 7)).2.2
      (by rw [List.length_replicate]; norm_num [chunkSize])).2

/-! ## LRU eviction (`AudioCacheManager._cleanup_lru` / `_check_cache_space`)

The cache table is modelled at distinct-file granularity, matching the
queries used by `_cleanup_lru` (`GROUP BY file_path`,
`SELECT DISTINCT file_path, file_size`): one record per distinct file path
with its size, last-accessed time (seconds; `datetime` differences are
seconds), whether any of its rows has `reference_count > 0`, and whether the
file exists on disk.  Timestamps are natural numbers with `now - lastAccessed`
as the elapsed time (`(datetime.now() - last_access_time).total_seconds()`). -/

/-- One distinct file of the `audio_cache` table. -/
structure CacheFile where
  path : String
  size : Nat
  lastAccessed : Nat
  refPos : Bool
  onDisk : Bool
deriving DecidableEq

/-- Cache configuration: `max_size` and `min_access_interval`. -/
structure CacheConfig where
  maxSize : Nat
  minInterval : Nat
deriving DecidableEq

/-- Source `AudioCacheManager._get_total_cache_size`: accumulate the sizes of the
distinct file paths whose file exists on disk (`total_size += file_size` for
each row with `os.path.exists(file_path)`). -/
def getTotalCacheSize (files : List CacheFile) : Nat :=
  ((files.filter (fun f => f.onDisk)).map (fun f => f.size)).sum

/-- Candidate selection loop of `_cleanup_lru`.  Walks the candidates in
least-recently-accessed order, collecting `files_to_remove`: a missing file is
always collected (without touching the running total); a present file is
collected only when `now - last_accessed > min_interval` (strict), its size is
subtracted from the running total, and the walk stops once the running total
reaches the target (80% of `max_size`). -/
def selectRemove (minInterval target now : Nat) : List CacheFile → Nat → List String
  | [], _ => []
  | f :: fs, total =>
    if f.onDisk = false then
      f.path :: selectRemove minInterval target now fs total
    else if now - f.lastAccessed > minInterval then
      if total - f.size ≤ target then [f.path]
      else f.path :: selectRemove minInterval target now fs (total - f.size)
    else
      selectRemove minInterval target now fs total

/-- Source `AudioCacheManager._cleanup_lru`: order the distinct files with a
positive-refcount row by `last_accessed` ascending, run the selection loop
starting from `_get_total_cache_size()` against the 80% low-water target
(`int(max_size * 0.8)`), then unlink every selected file and delete all rows
pointing at it. -/
def cleanupLru (cfg : CacheConfig) (now : Nat) (files : List CacheFile) : List CacheFile :=
  files.filter (fun f => ¬ f.path ∈ selectRemove cfg.minInterval (cfg.maxSize * 8 / 10) now
    (sSort (fun a b => decide (a.lastAccessed ≤ b.lastAccessed))
      (files.filter (fun f => f.refPos)))
    (getTotalCacheSize files))

/-- Source `AudioCacheManager._check_cache_space`: run the LRU cleanup only when the
total exceeds `max_size`. -/
def checkCacheSpace (cfg : CacheConfig) (now : Nat) (files : List CacheFile) : List CacheFile :=
  if getTotalCacheSize files > cfg.maxSize then cleanupLru cfg now files else files

theorem getTotalCacheSize_cons_disk {f : CacheFile} (fs : List CacheFile)
    (h : f.onDisk = true) :
    getTotalCacheSize (f :: fs) = f.size + getTotalCacheSize fs := by
  simp [getTotalCacheSize, List.filter_cons, h]

theorem getTotalCacheSize_perm {l l' : List CacheFile} (h : l.Perm l') :
    getTotalCacheSize l = getTotalCacheSize l' := by
  unfold getTotalCacheSize
  exact List.Perm.sum_eq (List.Perm.map (fun f => f.size)
    (List.Perm.filter (fun f => f.onDisk) h))

theorem selectRemove_subset_paths (minInterval target now : Nat) :
    ∀ (l : List CacheFile) (t : Nat) (p : String),
      p ∈ selectRemove minInterval target now l t → p ∈ l.map (fun f => f.path) := by
  intro l
  induction l with
  | nil =>
    intro t p hp
    simp [selectRemove] at hp
  | cons f fs ih =>
    intro t p hp
    by_cases hd : f.onDisk = false
    · rw [selectRemove, if_pos hd] at hp
      rcases List.mem_cons.mp hp with rfl | hp
      · simp
      · simpa using Or.inr (ih t p hp)
    · rw [selectRemove, if_neg hd] at hp
      by_cases hg : now - f.lastAccessed > minInterval
      · rw [if_pos hg] at hp
        by_cases hb : t - f.size ≤ target
        · rw [if_pos hb] at hp
          simp at hp
          simp [hp]
        · rw [if_neg hb] at hp
          rcases List.mem_cons.mp hp with rfl | hp
          · simp
          · simpa using Or.inr (ih (t - f.size) p hp)
      · rw [if_neg hg] at hp
        simpa using Or.inr (ih t p hp)

/-- Core lemma for the selection loop: when every candidate is on disk and the
paths are distinct, the loop either brings the kept candidates' total down to
the target, or every kept candidate is blocked by the access-interval guard.
`k` accounts for the sizes of candidates already kept in earlier steps. -/
theorem selectRemove_spec (minInterval target now : Nat) :
    ∀ (cands : List CacheFile) (k total : Nat),
      (∀ f ∈ cands, f.onDisk = true) →
      (cands.map (fun f => f.path)).Nodup →
      total = k + getTotalCacheSize cands →
      (k + getTotalCacheSize
          (cands.filter (fun f => ¬ f.path ∈ selectRemove minInterval target now cands total))
        ≤ target)
      ∨ (∀ f ∈ cands.filter
            (fun f => ¬ f.path ∈ selectRemove minInterval target now cands total),
          now - f.lastAccessed ≤ minInterval) := by
  intro cands
  induction cands with
  | nil =>
    intro k total _ _ _
    right
    intro f hf
    simp at hf
  | cons f fs ih =>
    intro k total hdisk hnodup htot
    have hfd : f.onDisk = true := hdisk f (List.mem_cons_self f fs)
    have hfd' : ¬ f.onDisk = false := by simp [hfd]
    have hfs : ∀ g ∈ fs, g.onDisk = true := fun g hg => hdisk g (List.mem_cons_of_mem f hg)
    have hnd : (fs.map (fun f => f.path)).Nodup := (List.nodup_cons.mp hnodup).2
    have hpf : ¬ f.path ∈ fs.map (fun f => f.path) := (List.nodup_cons.mp hnodup).1
    have hne : ∀ g ∈ fs, g.path ≠ f.path := by
      intro g hg heq
      exact hpf (heq ▸ List.mem_map_of_mem (fun f => f.path) hg)
    have htot' : total = (k + f.size) + getTotalCacheSize fs := by
      rw [htot, getTotalCacheSize_cons_disk fs hfd]
      omega
    by_cases hguard : now - f.lastAccessed > minInterval
    · by_cases hbreak : total - f.size ≤ target
      · -- the loop stops: only `f` is removed, everything else is kept
        left
        have hrem : selectRemove minInterval target now (f :: fs) total = [f.path] := by
          rw [selectRemove, if_neg hfd', if_pos hguard, if_pos hbreak]
        rw [hrem]
        have hkeep : (f :: fs).filter (fun g => ¬ g.path ∈ [f.path]) = fs := by
          rw [List.filter_cons]
          have hf1 : ¬ (decide (¬ f.path ∈ [f.path]) = true) := by simp
          rw [if_neg hf1]
          apply List.filter_eq_self.mpr
          intro g hg
          simpa using hne g hg
        rw [hkeep]
        omega
      · -- `f` is removed and the loop continues with the reduced total
        have hrem : selectRemove minInterval target now (f :: fs) total
            = f.path :: selectRemove minInterval target now fs (total - f.size) := by
          rw [selectRemove, if_neg hfd', if_pos hguard, if_neg hbreak]
        rw [hrem]
        have hkeep : (f :: fs).filter
              (fun g => ¬ g.path ∈ f.path :: selectRemove minInterval target now fs (total - f.size))
            = fs.filter (fun g => ¬ g.path ∈ selectRemove minInterval target now fs (total - f.size)) := by
          rw [List.filter_cons]
          have hf1 : ¬ (decide (¬ f.path ∈ f.path :: selectRemove minInterval target now fs (total - f.size)) = true) := by
            simp
          rw [if_neg hf1]
          apply List.filter_congr
          intro g hg
          simp [hne g hg]
        rw [hkeep]
        have := ih k (total - f.size) hfs hnd (by omega)
        exact this
    · -- `f` is guard-blocked and therefore kept
      have hrem : selectRemove minInterval target now (f :: fs) total
          = selectRemove minInterval target now fs total := by
        rw [selectRemove, if_neg hfd', if_neg hguard]
      rw [hrem]
      have hfkept : ¬ f.path ∈ selectRemove minInterval target now fs total := by
        intro hmem
        exact hpf (selectRemove_subset_paths minInterval target now fs total f.path hmem)
      have hkeep : (f :: fs).filter
            (fun g => ¬ g.path ∈ selectRemove minInterval target now fs total)
          = f :: fs.filter (fun g => ¬ g.path ∈ selectRemove minInterval target now fs total) := by
        rw [List.filter_cons]
        rw [if_pos (by simpa using hfkept)]
      rw [hkeep]
      rcases ih (k + f.size) total hfs hnd (by omega) with hle | hblocked
      · left
        rw [getTotalCacheSize_cons_disk _ hfd]
        omega
      · right
        intro g hg
        rcases List.mem_cons.mp hg with rfl | hg
        · omega
        · exact hblocked g hg

/-- Claim C1 (counterexample): with `max_size = 100`, `min_access_interval =
3600` and `now = 10000`, two referenced on-disk files `a` (size 200, accessed
at 10000) and `b` (size 10, accessed at 0) put the total at 210.  Candidate
`b` satisfies `now - last_accessed ≥ min_access_interval`, yet after
`_check_cache_space` the total is 200 > `max_size`: the hot entry `a` is never
force-evicted, so the claimed bound fails. -/
theorem cleanupLruClaimCounterexample :
    (∃ f ∈ [CacheFile.mk "a" 200 10000 true true, CacheFile.mk "b" 10 0 true true],
        3600 ≤ 10000 - f.lastAccessed)
    ∧ getTotalCacheSize (checkCacheSpace ⟨100, 3600⟩ 10000
        [CacheFile.mk "a" 200 10000 true true, CacheFile.mk "b" 10 0 true true]) > 100 := by
  decide

/-- Claim C1 (amended): after `_check_cache_space` returns (on a table whose
rows all have positive refcounts and existing distinct files), either the sum
of distinct-file sizes is at most `max_size` (the cleanup stops at the 80%
low-water mark), or every remaining file fails the strict guard
`now - last_accessed > min_access_interval`; candidates are considered in
least-recently-accessed-first order and guard-blocked entries are never
force-evicted, so when the blocked entries alone exceed the budget the total
remains above `max_size` even though some candidate was evictable. -/
theorem cleanupLruBudgetTheorem (cfg : CacheConfig) (now : Nat) (files : List CacheFile)
    (hdisk : ∀ f ∈ files, f.onDisk = true)
    (href : ∀ f ∈ files, f.refPos = true)
    (hnodup : (files.map (fun f => f.path)).Nodup) :
    getTotalCacheSize (checkCacheSpace cfg now files) ≤ cfg.maxSize
    ∨ ∀ f ∈ checkCacheSpace cfg now files, now - f.lastAccessed ≤ cfg.minInterval := by
  by_cases hover : getTotalCacheSize files > cfg.maxSize
  · have hfil : files.filter (fun f => f.refPos) = files :=
      List.filter_eq_self.mpr (fun f hf => href f hf)
    set cands := sSort (fun a b => decide (a.lastAccessed ≤ b.lastAccessed)) files with hcands
    have hperm : cands.Perm files := sSort_perm _ files
    have hcdisk : ∀ f ∈ cands, f.onDisk = true := fun f hf => hdisk f (hperm.mem_iff.mp hf)
    have hcnodup : (cands.map (fun f => f.path)).Nodup :=
      ((hperm.map (fun f => f.path)).nodup_iff).mpr hnodup
    have hcsum : getTotalCacheSize files = getTotalCacheSize cands :=
      (getTotalCacheSize_perm hperm).symm
    set rem := selectRemove cfg.minInterval (cfg.maxSize * 8 / 10) now cands
      (getTotalCacheSize files) with hremdef
    have hspec := selectRemove_spec cfg.minInterval (cfg.maxSize * 8 / 10) now cands 0
      (getTotalCacheSize files) hcdisk hcnodup (by omega)
    rw [← hremdef] at hspec
    have hres : checkCacheSpace cfg now files = files.filter (fun f => ¬ f.path ∈ rem) := by
      rw [checkCacheSpace, if_pos hover]
      simp only [cleanupLru]
      rw [hfil, ← hcands, ← hremdef]
    rw [hres]
    have hpermf : (cands.filter (fun f => ¬ f.path ∈ rem)).Perm
        (files.filter (fun f => ¬ f.path ∈ rem)) := hperm.filter _
    have hsum2 := getTotalCacheSize_perm hpermf
    have htarget : cfg.maxSize * 8 / 10 ≤ cfg.maxSize := by omega
    rcases hspec with hle | hblocked
    · left
      omega
    · right
      intro f hf
      exact hblocked f (hpermf.mem_iff.mpr hf)
  · rw [checkCacheSpace, if_neg hover]
    left
    omega

/-- Claim C1 (witness): the amended theorem applied to a concrete single-file
cache that is within budget. -/
theorem cleanupLruBudgetWitness :
    getTotalCacheSize (checkCacheSpace ⟨100, 3600⟩ 5000 [CacheFile.mk "a" 50 0 true true]) ≤ 100
    ∨ ∀ f ∈ checkCacheSpace ⟨100, 3600⟩ 5000 [CacheFile.mk "a" 50 0 true true],
        5000 - f.lastAccessed ≤ 3600 :=
  cleanupLruBudgetTheorem ⟨100, 3600⟩ 5000 [CacheFile.mk "a" 50 0 true true]
    (by decide) (by decide) (by decide)

/-! ## Content-addressed dedup with reference counting
(`AudioCacheManager._download_and_cache` and helpers)

For the refcount claims, a cache row is modelled by the columns read or
written by the dedup path: `song_id`, `file_path`, `audio_hash` and
`reference_count` (`file_size`, timestamps and `access_count` are written but
never read by these operations).  The disk is the list of cache files, each
carrying the content hash of its bytes.  `_check_cache_space` (which only ever
deletes entire file-path row groups together with their file, before the new
row is inserted) is modelled as the identity here — it preserves every
property below. -/

/-- A row of the `audio_cache` table (dedup-relevant columns). -/
structure CacheRow where
  song_id : String
  file_path : String
  audio_hash : String
  reference_count : Nat
deriving DecidableEq

/-- The cache database together with the on-disk files (path ↦ content hash). -/
structure CacheDb where
  rows : List CacheRow
  disk : List (String × String)
deriving DecidableEq

/-- Source `AudioCacheManager._find_by_hash`: `SELECT file_path WHERE audio_hash = ?
AND reference_count > 0 LIMIT 1`, then `if row and os.path.exists(row[0])`.
Note that only the first matching row's file is checked for existence. -/
def findByHash (db : CacheDb) (h : String) : Option String :=
  match db.rows.find? (fun r => r.audio_hash == h && decide (0 < r.reference_count)) with
  | none => none
  | some r => if (db.disk.lookup r.file_path).isSome then some r.file_path else none

/-- Source `AudioCacheManager._save_cache_info`: `INSERT OR REPLACE` keyed on
`song_id` (sqlite deletes the conflicting row and appends the new one). -/
def saveCacheInfo (db : CacheDb) (r : CacheRow) : CacheDb :=
  { db with rows := db.rows.filter (fun q => ¬ q.song_id = r.song_id) ++ [r] }

/-- Effect of the sibling update of `_create_cache_reference` on one row:
increment the refcount when `file_path = ? AND song_id != ?`. -/
def bumpRow (path sid : String) (q : CacheRow) : CacheRow :=
  if q.file_path == path && !(q.song_id == sid) then
    { q with reference_count := q.reference_count + 1 }
  else q

/-- The sibling update of `_create_cache_reference`:
`UPDATE audio_cache SET reference_count = reference_count + 1
WHERE file_path = ? AND song_id != ?`. -/
def bumpSiblings (path sid : String) (rows : List CacheRow) : List CacheRow :=
  rows.map (bumpRow path sid)

/-- Source `AudioCacheManager._create_cache_reference`: insert a fresh row for
`song_id` pointing at the shared `file_path` with `reference_count = 1`, then
increment every sibling row's refcount. -/
def createCacheReference (sid path h : String) (db : CacheDb) : CacheDb :=
  let db1 := saveCacheInfo db ⟨sid, path, h, 1⟩
  { db1 with rows := bumpSiblings path sid db1.rows }

/-- Cache file path chosen by `_download_and_cache`:
`self.cache_dir / f"{song.id}{file_extension}"`. -/
def cachePath (sid ext : String) : String :=
  "cache/" ++ sid ++ ext

/-- Source `AudioCacheManager._download_and_cache` after a successful download of
content hashing to `h` with extension `ext`: on a dedup hit the temp file is
deleted and a reference is created; otherwise the temp file is moved into the
cache directory (a new disk file) and a fresh row is inserted.
`_check_cache_space` is modelled as the identity (see the section comment). -/
def downloadAndCache (sid h ext : String) (db : CacheDb) : CacheDb :=
  match findByHash db h with
  | some p => createCacheReference sid p h db
  | none =>
    let p := cachePath sid ext
    saveCacheInfo { db with disk := db.disk ++ [(p, h)] } ⟨sid, p, h, 1⟩

/-- A successful `fetch_and_store` operation: the track id, the content hash
of the downloaded bytes, and the file extension produced by the extractor. -/
structure FetchOp where
  sid : String
  hash : String
  ext : String
deriving DecidableEq

/-- Run a sequence of successful `fetch_and_store` operations from an empty
cache. -/
def runOps (ops : List FetchOp) : CacheDb :=
  ops.foldl (fun db o => downloadAndCache o.sid o.hash o.ext db) ⟨[], []⟩

/-- Refcounts of the rows sharing a file path, in row order. -/
def rcList (rows : List CacheRow) (p : String) : List Nat :=
  (rows.filter (fun r => r.file_path == p)).map (fun r => r.reference_count)

/-- The list `[n, n-1, ..., 1]`. -/
def countdown : Nat → List Nat
  | 0 => []
  | n + 1 => (n + 1) :: countdown n

/-- Maximal refcount among the rows sharing a file path. -/
def maxRc (rows : List CacheRow) (p : String) : Nat :=
  (rcList rows p).foldr Nat.max 0

/-- Invariant of the cache database maintained by successful
`fetch_and_store` operations on fresh track ids. -/
structure DbInv (db : CacheDb) : Prop where
  sidNodup : (db.rows.map (fun r => r.song_id)).Nodup
  rowDisk : ∀ r ∈ db.rows, db.disk.lookup r.file_path = some r.audio_hash
  hashPath : ∀ r ∈ db.rows, ∀ q ∈ db.rows, r.audio_hash = q.audio_hash →
    r.file_path = q.file_path
  rcCount : ∀ p, rcList db.rows p = countdown (rcList db.rows p).length
  diskRow : ∀ d ∈ db.disk, ∃ r ∈ db.rows, r.file_path = d.1
  diskNodup : (db.disk.map Prod.fst).Nodup

/-! ### Association-list and countdown lemmas -/

theorem lookup_eq_none_of_not_mem {β : Type} (p : String) (d : List (String × β))
    (h : ¬ p ∈ d.map Prod.fst) : d.lookup p = none := by
  induction d with
  | nil => rfl
  | cons e t ih =>
    have h1 : p ≠ e.1 := fun heq => h (by simp [heq])
    have h2 : ¬ p ∈ t.map Prod.fst := fun hm => h (by simp [hm])
    obtain ⟨a, b⟩ := e
    have hba : (p == a) = false := beq_eq_false_iff_ne.mpr h1
    simp only [List.lookup, hba]
    exact ih h2

theorem lookup_append_left {β : Type} (p : String) (d1 d2 : List (String × β)) (v : β)
    (h : d1.lookup p = some v) : (d1 ++ d2).lookup p = some v := by
  induction d1 with
  | nil => simp [List.lookup] at h
  | cons e t ih =>
    obtain ⟨a, b⟩ := e
    by_cases hpa : (p == a) = true
    · simp only [List.lookup, List.cons_append, hpa] at h ⊢; exact h
    · have hba : (p == a) = false := by simpa using hpa
      simp only [List.lookup, List.cons_append, hba] at h ⊢; exact ih h

theorem lookup_append_right {β : Type} (p : String) (d1 d2 : List (String × β))
    (h : d1.lookup p = none) : (d1 ++ d2).lookup p = d2.lookup p := by
  induction d1 with
  | nil => rfl
  | cons e t ih =>
    obtain ⟨a, b⟩ := e
    by_cases hpa : (p == a) = true
    · simp only [List.lookup, hpa] at h; cases h
    · have hba : (p == a) = false := by simpa using hpa
      simp only [List.lookup, List.cons_append, hba] at h ⊢; exact ih h

theorem lookup_mem {β : Type} (p : String) (d : List (String × β)) (v : β)
    (h : d.lookup p = some v) : (p, v) ∈ d := by
  induction d with
  | nil => simp [List.lookup] at h
  | cons e t ih =>
    obtain ⟨a, b⟩ := e
    by_cases hpa : (p == a) = true
    · simp only [List.lookup, hpa] at h
      injection h with h
      subst h
      have hpeq : p = a := by simpa using hpa
      subst hpeq
      exact List.mem_cons_self _ _
    · have hba : (p == a) = false := by simpa using hpa
      simp only [List.lookup, hba] at h
      exact List.mem_cons_of_mem _ (ih h)

theorem lookup_of_mem_nodup {β : Type} (a : String) (b : β) (d : List (String × β))
    (hm : (a, b) ∈ d) (hnd : (d.map Prod.fst).Nodup) : d.lookup a = some b := by
  induction d with
  | nil => simp at hm
  | cons e t ih =>
    obtain ⟨x, y⟩ := e
    simp only [List.map_cons, List.nodup_cons] at hnd
    rcases List.mem_cons.mp hm with heq | hm'
    · injection heq with h1 h2
      subst h1; subst h2
      simp [List.lookup]
    · have hax : a ≠ x := by
        intro heq
        subst heq
        exact hnd.1 (List.mem_map_of_mem Prod.fst hm')
      have hba : (a == x) = false := beq_eq_false_iff_ne.mpr hax
      simp only [List.lookup, hba]
      exact ih hm' hnd.2

theorem countdown_mem {x n : Nat} (h : x ∈ countdown n) : 1 ≤ x := by
  induction n with
  | zero => simp [countdown] at h
  | succ n ih =>
    rcases List.mem_cons.mp h with rfl | h'
    · omega
    · exact ih h'

theorem countdown_map_succ (n : Nat) :
    (countdown n).map (fun x => x + 1) ++ [1] = countdown (n + 1) := by
  induction n with
  | zero => rfl
  | succ n ih =>
    simp only [countdown, List.map_cons, List.cons_append] at ih ⊢
    rw [ih]

theorem countdown_length (n : Nat) : (countdown n).length = n := by
  induction n with
  | zero => rfl
  | succ n ih => simp [countdown, ih]

theorem countdown_foldr_max (n : Nat) : (countdown n).foldr Nat.max 0 = n := by
  induction n with
  | zero => rfl
  | succ n ih =>
    simp only [countdown, List.foldr_cons, ih]
    exact Nat.max_eq_left (by omega)

/-! ### Row-level lemmas about the sibling update -/

theorem bumpRow_song_id (path sid : String) (q : CacheRow) :
    (bumpRow path sid q).song_id = q.song_id := by
  unfold bumpRow
  split <;> rfl

theorem bumpRow_file_path (path sid : String) (q : CacheRow) :
    (bumpRow path sid q).file_path = q.file_path := by
  unfold bumpRow
  split <;> rfl

theorem bumpRow_audio_hash (path sid : String) (q : CacheRow) :
    (bumpRow path sid q).audio_hash = q.audio_hash := by
  unfold bumpRow
  split <;> rfl

theorem bumpRow_self (path sid : String) (q : CacheRow) (h : q.song_id = sid) :
    bumpRow path sid q = q := by
  unfold bumpRow
  rw [if_neg]
  simp [h]

theorem bumpRow_fresh (path sid : String) (q : CacheRow) (h : q.song_id ≠ sid)
    (hp : (q.file_path == path) = true) :
    bumpRow path sid q = { q with reference_count := q.reference_count + 1 } := by
  unfold bumpRow
  rw [if_pos]
  simp [hp, h]

theorem bumpRow_other (path sid : String) (q : CacheRow)
    (hp : (q.file_path == path) = false) :
    bumpRow path sid q = q := by
  unfold bumpRow
  rw [if_neg]
  simp [hp]

theorem rcList_append (l1 l2 : List CacheRow) (p : String) :
    rcList (l1 ++ l2) p = rcList l1 p ++ rcList l2 p := by
  simp [rcList, List.filter_append]

theorem rcList_bump_eq (p sid : String) (rows : List CacheRow)
    (hfresh : ∀ q ∈ rows, q.song_id ≠ sid) :
    rcList (bumpSiblings p sid rows) p = (rcList rows p).map (fun x => x + 1) := by
  induction rows with
  | nil => rfl
  | cons q t ih =>
    have hq : q.song_id ≠ sid := hfresh q (List.mem_cons_self q t)
    have ht : ∀ x ∈ t, x.song_id ≠ sid := fun x hx => hfresh x (List.mem_cons_of_mem q hx)
    by_cases hp : (q.file_path == p) = true
    · have hb := bumpRow_fresh p sid q hq hp
      simp only [bumpSiblings, List.map_cons, rcList, List.filter_cons] at ih ⊢
      rw [hb]
      simp only [hp, if_pos]
      have hp' : ({ q with reference_count := q.reference_count + 1 }.file_path == p) = true := hp
      simp only [hp', if_pos, List.map_cons]
      exact congrArg _ (ih ht)
    · have hb := bumpRow_other p sid q (by simpa using hp)
      simp only [bumpSiblings, List.map_cons, rcList, List.filter_cons] at ih ⊢
      rw [hb]
      simp only [hp]
      exact ih ht

theorem rcList_bump_ne (p p' sid : String) (rows : List CacheRow) (hne : p' ≠ p) :
    rcList (bumpSiblings p sid rows) p' = rcList rows p' := by
  induction rows with
  | nil => rfl
  | cons q t ih =>
    have hfp : (bumpRow p sid q).file_path = q.file_path := bumpRow_file_path p sid q
    by_cases hp : (q.file_path == p') = true
    · have hqp : (q.file_path == p) = false := by
        have hq' : q.file_path = p' := by simpa using hp
        simp [hq', hne]
      have hb := bumpRow_other p sid q hqp
      simp only [bumpSiblings, List.map_cons, rcList, List.filter_cons] at ih ⊢
      rw [hb]
      simp only [hp, if_pos, List.map_cons]
      exact congrArg _ ih
    · have hp2 : ((bumpRow p sid q).file_path == p') = false := by
        rw [hfp]; simpa using hp
      simp only [bumpSiblings, List.map_cons, rcList, List.filter_cons] at ih ⊢
      simp only [hp, hp2]
      exact ih

theorem bumpSiblings_map_song_id (path sid : String) (rows : List CacheRow) :
    (bumpSiblings path sid rows).map (fun r => r.song_id)
      = rows.map (fun r => r.song_id) := by
  unfold bumpSiblings
  rw [List.map_map]
  apply List.map_congr_left
  intro q _
  exact bumpRow_song_id path sid q

/-! ### Characterizing `_find_by_hash` under the invariant -/

theorem rc_pos {db : CacheDb} (hinv : DbInv db) {r : CacheRow} (hr : r ∈ db.rows) :
    1 ≤ r.reference_count := by
  have hmem : r.reference_count ∈ rcList db.rows r.file_path :=
    List.mem_map_of_mem _ (List.mem_filter.mpr ⟨hr, by simp⟩)
  rw [hinv.rcCount r.file_path] at hmem
  exact countdown_mem hmem

theorem findByHash_none {db : CacheDb} {h : String} (hinv : DbInv db)
    (hn : findByHash db h = none) : ∀ r ∈ db.rows, r.audio_hash ≠ h := by
  intro r hr heq
  have hrc : 1 ≤ r.reference_count := rc_pos hinv hr
  cases hfind : db.rows.find?
      (fun r => r.audio_hash == h && decide (0 < r.reference_count)) with
  | none =>
    have hall := List.find?_eq_none.mp hfind r hr
    simp [heq] at hall
    omega
  | some r0 =>
    have hr0mem := List.mem_of_find?_eq_some hfind
    have hdisk := hinv.rowDisk r0 hr0mem
    unfold findByHash at hn
    rw [hfind] at hn
    dsimp only at hn
    rw [if_pos (by rw [hdisk]; rfl)] at hn
    cases hn

theorem findByHash_some {db : CacheDb} {h p : String}
    (hs : findByHash db h = some p) :
    ∃ r0 ∈ db.rows, r0.audio_hash = h ∧ r0.file_path = p := by
  unfold findByHash at hs
  cases hfind : db.rows.find?
      (fun r => r.audio_hash == h && decide (0 < r.reference_count)) with
  | none => rw [hfind] at hs; cases hs
  | some r0 =>
    rw [hfind] at hs
    dsimp only at hs
    by_cases hd : (db.disk.lookup r0.file_path).isSome
    · rw [if_pos hd] at hs
      injection hs with hs
      have hmem := List.mem_of_find?_eq_some hfind
      have hpred := List.find?_some hfind
      simp only [Bool.and_eq_true, beq_iff_eq, decide_eq_true_eq] at hpred
      exact ⟨r0, hmem, hpred.1, hs⟩
    · rw [if_neg hd] at hs
      cases hs

/-- One successful `fetch_and_store` on a fresh track id and a fresh cache
path preserves the invariant; the new row list appends the track id and the
disk either is unchanged (dedup hit) or gains exactly the new cache file. -/
theorem downloadAndCache_inv (o : FetchOp) (db : CacheDb) (hinv : DbInv db)
    (hsid : ¬ o.sid ∈ db.rows.map (fun r => r.song_id))
    (hpath : ¬ cachePath o.sid o.ext ∈ db.disk.map Prod.fst) :
    DbInv (downloadAndCache o.sid o.hash o.ext db)
    ∧ (downloadAndCache o.sid o.hash o.ext db).rows.map (fun r => r.song_id)
        = db.rows.map (fun r => r.song_id) ++ [o.sid]
    ∧ ((downloadAndCache o.sid o.hash o.ext db).disk = db.disk
        ∨ (downloadAndCache o.sid o.hash o.ext db).disk
            = db.disk ++ [(cachePath o.sid o.ext, o.hash)]) := by
  have hfresh : ∀ q ∈ db.rows, q.song_id ≠ o.sid :=
    fun q hq heq => hsid (heq ▸ List.mem_map_of_mem _ hq)
  have hfil : db.rows.filter (fun q => ¬ q.song_id = o.sid) = db.rows :=
    List.filter_eq_self.mpr (fun q hq => by simpa using hfresh q hq)
  cases hf : findByHash db o.hash with
  | some p =>
    obtain ⟨r0, hr0mem, hr0hash, hr0path⟩ := findByHash_some hf
    have hdef : downloadAndCache o.sid o.hash o.ext db
        = { rows := bumpSiblings p o.sid db.rows ++ [⟨o.sid, p, o.hash, 1⟩],
            disk := db.disk } := by
      unfold downloadAndCache
      rw [hf]
      unfold createCacheReference saveCacheInfo
      dsimp only
      rw [hfil]
      unfold bumpSiblings
      rw [List.map_append]
      congr 1
      simp only [List.map_cons, List.map_nil]
      rw [bumpRow_self p o.sid _ rfl]
    rw [hdef]
    have hsids : (bumpSiblings p o.sid db.rows ++ [CacheRow.mk o.sid p o.hash 1]).map
          (fun r => r.song_id)
        = db.rows.map (fun r => r.song_id) ++ [o.sid] := by
      rw [List.map_append, bumpSiblings_map_song_id]
      rfl
    have hchar : ∀ r ∈ bumpSiblings p o.sid db.rows ++ [CacheRow.mk o.sid p o.hash 1],
        (∃ q ∈ db.rows, r.file_path = q.file_path ∧ r.audio_hash = q.audio_hash)
        ∨ (r.file_path = p ∧ r.audio_hash = o.hash) := by
      intro r hr
      rcases List.mem_append.mp hr with hr | hr
      · obtain ⟨q, hq, rfl⟩ := List.mem_map.mp hr
        exact Or.inl ⟨q, hq, bumpRow_file_path p o.sid q, bumpRow_audio_hash p o.sid q⟩
      · simp at hr
        subst hr
        exact Or.inr ⟨rfl, rfl⟩
    refine ⟨⟨?_, ?_, ?_, ?_, ?_, ?_⟩, hsids, Or.inl rfl⟩
    · -- sidNodup
      rw [hsids]
      simp only [List.nodup_append, List.nodup_cons, List.nodup_nil, and_true,
        List.not_mem_nil, not_false_iff, true_and]
      refine ⟨hinv.sidNodup, ?_⟩
      intro x hx
      simp only [List.mem_singleton]
      intro heq
      exact hsid (heq ▸ hx)
    · -- rowDisk
      intro r hr
      rcases hchar r hr with ⟨q, hq, hp1, hh1⟩ | ⟨hp1, hh1⟩
      · rw [hp1, hh1]
        exact hinv.rowDisk q hq
      · rw [hp1, hh1]
        have := hinv.rowDisk r0 hr0mem
        rw [hr0path, hr0hash] at this
        exact this
    · -- hashPath
      intro r hr q hq heq
      rcases hchar r hr with ⟨a, ha, hpa, hha⟩ | ⟨hpa, hha⟩ <;>
        rcases hchar q hq with ⟨b, hb, hpb, hhb⟩ | ⟨hpb, hhb⟩
      · rw [hpa, hpb]
        exact hinv.hashPath a ha b hb (by rw [← hha, ← hhb, heq])
      · rw [hpa, hpb]
        have hab : a.audio_hash = r0.audio_hash := by rw [← hha, heq, hhb, hr0hash]
        rw [hinv.hashPath a ha r0 hr0mem hab, hr0path]
      · rw [hpa, hpb]
        have hab : b.audio_hash = r0.audio_hash := by rw [← hhb, ← heq, hha, hr0hash]
        rw [hinv.hashPath b hb r0 hr0mem hab, hr0path]
      · rw [hpa, hpb]
    · -- rcCount
      intro p'
      show rcList (bumpSiblings p o.sid db.rows ++ [CacheRow.mk o.sid p o.hash 1]) p' = _
      rw [rcList_append]
      by_cases hpp : p' = p
      · subst hpp
        rw [rcList_bump_eq p' o.sid db.rows hfresh]
        have hnew : rcList [CacheRow.mk o.sid p' o.hash 1] p' = [1] := by
          simp [rcList, List.filter_cons]
        rw [hnew]
        have hold := hinv.rcCount p'
        rw [hold, countdown_map_succ, countdown_length]
      · rw [rcList_bump_ne p p' o.sid db.rows hpp]
        have hnew : rcList [CacheRow.mk o.sid p o.hash 1] p' = [] := by
          simp [rcList, List.filter_cons]
          intro heq
          exact absurd heq.symm hpp
        rw [hnew, List.append_nil]
        exact hinv.rcCount p'
    · -- diskRow
      intro d hd
      obtain ⟨r, hrm, hrp⟩ := hinv.diskRow d hd
      refine ⟨bumpRow p o.sid r, ?_, ?_⟩
      · exact List.mem_append_left _ (List.mem_map_of_mem _ hrm)
      · rw [bumpRow_file_path, hrp]
    · -- diskNodup
      exact hinv.diskNodup
  | none =>
    have hnone := findByHash_none hinv hf
    have hdef : downloadAndCache o.sid o.hash o.ext db
        = { rows := db.rows ++ [⟨o.sid, cachePath o.sid o.ext, o.hash, 1⟩],
            disk := db.disk ++ [(cachePath o.sid o.ext, o.hash)] } := by
      unfold downloadAndCache
      rw [hf]
      unfold saveCacheInfo
      dsimp only
      rw [hfil]
    rw [hdef]
    have hnotrow : ∀ q ∈ db.rows, q.file_path ≠ cachePath o.sid o.ext := by
      intro q hq heq
      have hlk := hinv.rowDisk q hq
      rw [heq, lookup_eq_none_of_not_mem _ _ hpath] at hlk
      cases hlk
    refine ⟨⟨?_, ?_, ?_, ?_, ?_, ?_⟩, by simp, Or.inr rfl⟩
    · -- sidNodup
      rw [List.map_append]
      simp only [List.nodup_append, List.map_cons, List.map_nil, List.nodup_cons,
        List.nodup_nil, and_true, List.not_mem_nil, not_false_iff, true_and]
      refine ⟨hinv.sidNodup, ?_⟩
      intro x hx
      simp only [List.mem_singleton]
      intro heq
      exact hsid (heq ▸ hx)
    · -- rowDisk
      intro r hr
      rcases List.mem_append.mp hr with hr | hr
      · rw [lookup_append_left _ _ _ _ (hinv.rowDisk r hr)]
      · simp at hr
        subst hr
        dsimp only
        rw [lookup_append_right _ _ _ (lookup_eq_none_of_not_mem _ _ hpath)]
        simp [List.lookup]
    · -- hashPath
      intro r hr q hq heq
      rcases List.mem_append.mp hr with hr | hr <;>
        rcases List.mem_append.mp hq with hq | hq
      · exact hinv.hashPath r hr q hq heq
      · simp at hq
        subst hq
        exact absurd (by simpa using heq) (hnone r hr)
      · simp at hr
        subst hr
        exact absurd (by simpa using heq.symm) (hnone q hq)
      · simp at hr hq
        subst hr
        subst hq
        rfl
    · -- rcCount
      intro p'
      show rcList (db.rows ++ [CacheRow.mk o.sid (cachePath o.sid o.ext) o.hash 1]) p' = _
      rw [rcList_append]
      by_cases hpp : p' = cachePath o.sid o.ext
      · subst hpp
        have hold : rcList db.rows (cachePath o.sid o.ext) = [] := by
          unfold rcList
          rw [List.filter_eq_nil_iff.mpr (fun q hq => by simpa using hnotrow q hq)]
          rfl
        have hnew : rcList [CacheRow.mk o.sid (cachePath o.sid o.ext) o.hash 1]
            (cachePath o.sid o.ext) = [1] := by
          simp [rcList, List.filter_cons]
        rw [hold, hnew]
        rfl
      · have hnew : rcList [CacheRow.mk o.sid (cachePath o.sid o.ext) o.hash 1] p' = [] := by
          simp [rcList, List.filter_cons]
          intro heq
          exact absurd heq.symm hpp
        rw [hnew, List.append_nil]
        exact hinv.rcCount p'
    · -- diskRow
      intro d hd
      rcases List.mem_append.mp hd with hd | hd
      · obtain ⟨r, hrm, hrp⟩ := hinv.diskRow d hd
        exact ⟨r, List.mem_append_left _ hrm, hrp⟩
      · simp at hd
        subst hd
        exact ⟨CacheRow.mk o.sid (cachePath o.sid o.ext) o.hash 1,
          List.mem_append_right _ (List.mem_cons_self _ _), rfl⟩
    · -- diskNodup
      rw [List.map_append]
      simp only [List.nodup_append, List.map_cons, List.map_nil, List.nodup_cons,
        List.nodup_nil, and_true, List.not_mem_nil, not_false_iff, true_and]
      refine ⟨hinv.diskNodup, ?_⟩
      intro x hx
      simp only [List.mem_singleton]
      intro heq
      exact hpath (heq ▸ hx)

theorem dbInv_empty : DbInv ⟨[], []⟩ :=
  ⟨by simp, by simp, by simp, fun p => rfl, by simp, by simp⟩

/-- Folding successful `fetch_and_store` operations with pairwise-fresh track
ids and cache paths preserves the invariant. -/
theorem runOps_inv_aux (ops : List FetchOp) :
    ∀ (db : CacheDb), DbInv db →
      (∀ o ∈ ops, ¬ o.sid ∈ db.rows.map (fun r => r.song_id)) →
      (∀ o ∈ ops, ¬ cachePath o.sid o.ext ∈ db.disk.map Prod.fst) →
      (ops.map (fun o => o.sid)).Nodup →
      (ops.map (fun o => cachePath o.sid o.ext)).Nodup →
      DbInv (ops.foldl (fun db o => downloadAndCache o.sid o.hash o.ext db) db) := by
  induction ops with
  | nil =>
    intro db hinv _ _ _ _
    exact hinv
  | cons o rest ih =>
    intro db hinv hs hp hns hnp
    rw [List.foldl_cons]
    obtain ⟨hinv', hsids, hdisk⟩ := downloadAndCache_inv o db hinv
      (hs o (List.mem_cons_self o rest)) (hp o (List.mem_cons_self o rest))
    have hns2 : (∀ x ∈ rest, ¬ x.sid = o.sid)
        ∧ (rest.map (fun o => o.sid)).Nodup := by simpa using hns
    have hnp2 : (∀ x ∈ rest, ¬ cachePath x.sid x.ext = cachePath o.sid o.ext)
        ∧ (rest.map (fun o => cachePath o.sid o.ext)).Nodup := by simpa using hnp
    apply ih _ hinv'
    · intro o' ho' hmem
      rw [hsids] at hmem
      rcases List.mem_append.mp hmem with hmem | hmem
      · exact hs o' (List.mem_cons_of_mem _ ho') hmem
      · simp only [List.mem_singleton] at hmem
        exact hns2.1 o' ho' hmem
    · intro o' ho' hmem
      rcases hdisk with hd | hd
      · rw [hd] at hmem
        exact hp o' (List.mem_cons_of_mem _ ho') hmem
      · rw [hd, List.map_append] at hmem
        rcases List.mem_append.mp hmem with hmem | hmem
        · exact hp o' (List.mem_cons_of_mem _ ho') hmem
        · simp only [List.map_cons, List.map_nil, List.mem_singleton] at hmem
          exact hnp2.1 o' ho' hmem
    · exact hns2.2
    · exact hnp2.2

theorem runOps_inv (ops : List FetchOp)
    (hsid : (ops.map (fun o => o.sid)).Nodup)
    (hpath : (ops.map (fun o => cachePath o.sid o.ext)).Nodup) :
    DbInv (runOps ops) :=
  runOps_inv_aux ops ⟨[], []⟩ dbInv_empty (by simp) (by simp) hsid hpath

/-- Claim C2: for every sequence of successful `fetch_and_store` operations
(one per track id, as produced by `get_audio_file` cache misses), whenever a
content hash `h` appears in two or more rows, all those rows share a single
file path `p`, exactly one disk file carries content hash `h`, and the maximal
refcount among the rows with path `p` equals the number of such rows — each
dedup hit deletes the temp file, inserts a refcount-1 row and increments every
sibling row by exactly 1 (see `createCacheReference`). -/
theorem fetchStoreDedupTheorem (ops : List FetchOp)
    (hsid : (ops.map (fun o => o.sid)).Nodup)
    (hpath : (ops.map (fun o => cachePath o.sid o.ext)).Nodup)
    (h : String)
    (hmulti : 2 ≤ ((runOps ops).rows.filter (fun r => r.audio_hash == h)).length) :
    ∃ p, (∀ r ∈ (runOps ops).rows, r.audio_hash = h → r.file_path = p)
      ∧ ((runOps ops).disk.filter (fun d => d.2 == h)).length = 1
      ∧ maxRc (runOps ops).rows p
          = ((runOps ops).rows.filter (fun r => r.file_path == p)).length := by
  have hinv : DbInv (runOps ops) := runOps_inv ops hsid hpath
  have hne : ((runOps ops).rows.filter (fun r => r.audio_hash == h)) ≠ [] := by
    intro hnil
    rw [hnil] at hmulti
    simp at hmulti
  obtain ⟨r1, hr1f⟩ := List.exists_mem_of_ne_nil _ hne
  have hr1 := List.mem_filter.mp hr1f
  have hr1h : r1.audio_hash = h := by simpa using hr1.2
  refine ⟨r1.file_path, ?_, ?_, ?_⟩
  · intro r hr hrh
    exact hinv.hashPath r hr r1 hr1.1 (by rw [hrh, hr1h])
  · have hlook : (runOps ops).disk.lookup r1.file_path = some h := by
      have hl := hinv.rowDisk r1 hr1.1
      rw [hr1h] at hl
      exact hl
    have hmem1 : (r1.file_path, h) ∈ (runOps ops).disk := lookup_mem _ _ _ hlook
    have hall : ∀ d ∈ (runOps ops).disk.filter (fun d => d.2 == h),
        d = (r1.file_path, h) := by
      intro d hd
      have hd' := List.mem_filter.mp hd
      have hdh : d.2 = h := by simpa using hd'.2
      obtain ⟨r', hr'm, hr'p⟩ := hinv.diskRow d hd'.1
      have hl2 : (runOps ops).disk.lookup d.1 = some d.2 := by
        apply lookup_of_mem_nodup d.1 d.2 _ _ hinv.diskNodup
        have : (d.1, d.2) = d := rfl
        rw [this]
        exact hd'.1
      have hl3 := hinv.rowDisk r' hr'm
      rw [hr'p] at hl3
      have hr'h : r'.audio_hash = h := by
        rw [hl3] at hl2
        injection hl2 with hh
        rw [hh, hdh]
      have hpp : r'.file_path = r1.file_path :=
        hinv.hashPath r' hr'm r1 hr1.1 (by rw [hr'h, hr1h])
      have h1 : d.1 = r1.file_path := by rw [← hr'p, hpp]
      exact Prod.ext h1 hdh
    have hnd : ((runOps ops).disk.filter (fun d => d.2 == h)).Nodup :=
      (hinv.diskNodup.of_map Prod.fst).filter _
    have hmemf : (r1.file_path, h) ∈ (runOps ops).disk.filter (fun d => d.2 == h) :=
      List.mem_filter.mpr ⟨hmem1, by simp⟩
    cases hfl : (runOps ops).disk.filter (fun d => d.2 == h) with
    | nil =>
      rw [hfl] at hmemf
      cases hmemf
    | cons d1 t =>
      cases t with
      | nil => rfl
      | cons d2 t2 =>
        have h1 := hall d1 (hfl ▸ List.mem_cons_self d1 (d2 :: t2))
        have h2 := hall d2 (hfl ▸ List.mem_cons_of_mem d1 (List.mem_cons_self d2 t2))
        rw [hfl] at hnd
        rcases List.nodup_cons.mp hnd with ⟨hn1, _⟩
        exfalso
        apply hn1
        rw [h1.trans h2.symm]
        exact List.mem_cons_self d2 t2
  · have hrc := hinv.rcCount r1.file_path
    unfold maxRc
    rw [hrc, countdown_foldr_max]
    unfold rcList
    rw [List.length_map]

/-- Claim C2 (witness): two fetches of byte-identical content (hash `h1`) for
tracks `A` and `B` — one disk file, two rows, maximal refcount 2 on the shared
path, rows count 2. -/
theorem fetchStoreDedupWitness :
    ∃ p, (∀ r ∈ (runOps [⟨"A", "h1", ".mp3"⟩, ⟨"B", "h1", ".mp3"⟩]).rows,
          r.audio_hash = "h1" → r.file_path = p)
      ∧ ((runOps [⟨"A", "h1", ".mp3"⟩, ⟨"B", "h1", ".mp3"⟩]).disk.filter
          (fun d => d.2 == "h1")).length = 1
      ∧ maxRc (runOps [⟨"A", "h1", ".mp3"⟩, ⟨"B", "h1", ".mp3"⟩]).rows p
          = ((runOps [⟨"A", "h1", ".mp3"⟩, ⟨"B", "h1", ".mp3"⟩]).rows.filter
              (fun r => r.file_path == p)).length :=
  fetchStoreDedupTheorem [⟨"A", "h1", ".mp3"⟩, ⟨"B", "h1", ".mp3"⟩]
    (by decide) (by decide) "h1" (by decide)

/-! ## Search aggregation (`PluginManager`) -/

/-- Deduplication key of `_rank_and_deduplicate`:
`f"{song.title.lower()}_{song.artist.lower()}"`. -/
def dedupKey (s : Song) : List Char :=
  lowerStr s.title ++ '_' :: lowerStr s.artist

/-- The seen-set loop of `_rank_and_deduplicate`: keep a song iff its key has
not been seen, first occurrence first. -/
def dedupAux (seen : List (List Char)) : List Song → List Song
  | [] => []
  | s :: rest =>
    if dedupKey s ∈ seen then dedupAux seen rest
    else s :: dedupAux (dedupKey s :: seen) rest

/-- Deduplication stage of `PluginManager._rank_and_deduplicate`. -/
def dedupSongs (results : List Song) : List Song :=
  dedupAux [] results

/-- Default `platform_priority` map of `_rank_and_deduplicate`. -/
def defaultPlatformPriority : List (String × Nat) :=
  [("bilibili", 20), ("netease", 15), ("local", 10), ("default", 5)]

/-- Source `platform_scores.get(song.platform, platform_scores.get('default', 5))`
with the default map (no `platform_priority` config override). -/
def platformScore (platform : String) : Nat :=
  (defaultPlatformPriority.lookup platform).getD
    ((defaultPlatformPriority.lookup "default").getD 5)

/-- Source `score_song` of `_rank_and_deduplicate`: +100 for an exact
(case-insensitive) title match, else +50 when the title contains the query;
+30 when the artist contains the query; plus the platform bonus. -/
def scoreSong (query : String) (s : Song) : Nat :=
  (if lowerStr s.title = lowerStr query then 100
   else if charsHas (lowerStr query) (lowerStr s.title) then 50 else 0)
  + (if charsHas (lowerStr query) (lowerStr s.artist) then 30 else 0)
  + platformScore s.platform

/-- Modelled from the spec: the ranking table of the claim read additively
(+100 for equality and +50 for containment are separate bonuses).  Used only
to compare the induced order with the source's `score_song`. -/
def specScoreSong (query : String) (s : Song) : Nat :=
  (if lowerStr s.title = lowerStr query then 100 else 0)
  + (if charsHas (lowerStr query) (lowerStr s.title) then 50 else 0)
  + (if charsHas (lowerStr query) (lowerStr s.artist) then 30 else 0)
  + platformScore s.platform

/-- Source `PluginManager._rank_and_deduplicate`: empty input short-circuits;
otherwise deduplicate and sort by descending score
(`sorted(..., key=score_song, reverse=True)`, a stable sort). -/
def rankAndDeduplicate (results : List Song) (query : String) : List Song :=
  if results.isEmpty then []
  else sSort (fun a b => decide (scoreSong query b ≤ scoreSong query a))
    (dedupSongs results)

/-- A plugin registration: name and enabled flag. -/
structure PluginInfo where
  name : String
  enabled : Bool
deriving DecidableEq

/-- The built-in plugins registered by `_load_builtin_plugins`, in insertion
order. -/
def builtinPlugins : List PluginInfo :=
  [⟨"bilibili", true⟩, ⟨"local", true⟩, ⟨"netease", true⟩]

/-- Number of enabled plugins
(`len([p for p in self.plugins.values() if p.get('enabled', True)])`). -/
def enabledCount (ps : List PluginInfo) : Nat :=
  (ps.filter (fun p => p.enabled)).length

/-- Fan-out of `search_song` without a source filter: every enabled plugin is
dispatched with `per_plugin_limit = max(1, limit // enabled_count)`. -/
def searchSongDispatch (ps : List PluginInfo) (limit : Nat) : List (String × Nat) :=
  (ps.filter (fun p => p.enabled)).map (fun p => (p.name, max 1 (limit / enabledCount ps)))

/-- Modelled from the spec: `ceil(limit / enabled_count)`. -/
def specCeilDiv (a b : Nat) : Nat :=
  (a + b - 1) / b

/-! ### Deduplication lemmas (claim C6) -/

theorem dedupAux_congr :
    ∀ (l : List Song) (seen seen' : List (List Char)),
      (∀ k, k ∈ seen ↔ k ∈ seen') → dedupAux seen l = dedupAux seen' l := by
  intro l
  induction l with
  | nil => intro seen seen' _; rfl
  | cons s rest ih =>
    intro seen seen' hiff
    by_cases hm : dedupKey s ∈ seen
    · rw [dedupAux, if_pos hm, dedupAux, if_pos ((hiff _).mp hm)]
      exact ih seen seen' hiff
    · rw [dedupAux, if_neg hm, dedupAux, if_neg (fun hc => hm ((hiff _).mpr hc))]
      congr 1
      apply ih
      intro k
      simp only [List.mem_cons]
      constructor
      · rintro (rfl | hk)
        · exact Or.inl rfl
        · exact Or.inr ((hiff k).mp hk)
      · rintro (rfl | hk)
        · exact Or.inl rfl
        · exact Or.inr ((hiff k).mpr hk)

theorem dedupAux_cons_seen (k : List Char) :
    ∀ (l : List Song) (seen : List (List Char)),
      dedupAux (k :: seen) l
        = dedupAux seen (l.filter (fun y => ¬ dedupKey y = k)) := by
  intro l
  induction l with
  | nil => intro seen; rfl
  | cons s rest ih =>
    intro seen
    by_cases hks : dedupKey s = k
    · have hdrop : (s :: rest).filter (fun y => ¬ dedupKey y = k)
          = rest.filter (fun y => ¬ dedupKey y = k) := by
        rw [List.filter_cons, if_neg (by simp [hks])]
      rw [hdrop, dedupAux, if_pos (by simp [hks]), ih]
    · have hkeep : (s :: rest).filter (fun y => ¬ dedupKey y = k)
          = s :: rest.filter (fun y => ¬ dedupKey y = k) := by
        rw [List.filter_cons, if_pos (by simpa using hks)]
      rw [hkeep]
      by_cases hseen : dedupKey s ∈ seen
      · rw [dedupAux, if_pos (List.mem_cons_of_mem _ hseen), ih,
          dedupAux, if_pos hseen]
      · have hnot : ¬ dedupKey s ∈ k :: seen := by
          simp [hks, hseen]
        rw [dedupAux, if_neg hnot, dedupAux, if_neg hseen]
        congr 1
        rw [dedupAux_congr rest (dedupKey s :: k :: seen) (k :: dedupKey s :: seen)
          (fun x => by simp; tauto)]
        exact ih (dedupKey s :: seen)

theorem dedupSongs_cons (x : Song) (l : List Song) :
    dedupSongs (x :: l)
      = x :: dedupSongs (l.filter (fun y => ¬ dedupKey y = dedupKey x)) := by
  unfold dedupSongs
  rw [dedupAux, if_neg (by simp)]
  congr 1
  exact dedupAux_cons_seen (dedupKey x) l []

theorem dedupAux_key_nodup :
    ∀ (l : List Song) (seen : List (List Char)),
      ((dedupAux seen l).map dedupKey).Nodup
      ∧ ∀ s ∈ dedupAux seen l, ¬ dedupKey s ∈ seen := by
  intro l
  induction l with
  | nil => intro seen; exact ⟨List.nodup_nil, by simp [dedupAux]⟩
  | cons s rest ih =>
    intro seen
    by_cases hm : dedupKey s ∈ seen
    · rw [dedupAux, if_pos hm]
      exact ih seen
    · rw [dedupAux, if_neg hm]
      obtain ⟨hnd, hnotin⟩ := ih (dedupKey s :: seen)
      refine ⟨?_, ?_⟩
      · rw [List.map_cons]
        refine List.nodup_cons.mpr ⟨?_, hnd⟩
        intro hc
        obtain ⟨t, htm, htk⟩ := List.mem_map.mp hc
        exact hnotin t htm (htk ▸ List.mem_cons_self _ _)
      · intro t ht
        rcases List.mem_cons.mp ht with rfl | ht
        · exact hm
        · exact fun hc => hnotin t ht (List.mem_cons_of_mem _ hc)

theorem dedupAux_exists_key :
    ∀ (l : List Song) (seen : List (List Char)) (x : Song),
      x ∈ l → ¬ dedupKey x ∈ seen →
      ∃ y ∈ dedupAux seen l, dedupKey y = dedupKey x := by
  intro l
  induction l with
  | nil => intro seen x hx; simp at hx
  | cons s rest ih =>
    intro seen x hx hnot
    by_cases hm : dedupKey s ∈ seen
    · rw [dedupAux, if_pos hm]
      rcases List.mem_cons.mp hx with heq | hx
      · exact absurd (heq ▸ hm) hnot
      · exact ih seen x hx hnot
    · rw [dedupAux, if_neg hm]
      rcases List.mem_cons.mp hx with heq | hx
      · exact ⟨s, List.mem_cons_self _ _, by rw [heq]⟩
      · by_cases hkey : dedupKey x = dedupKey s
        · exact ⟨s, List.mem_cons_self _ _, hkey.symm⟩
        · obtain ⟨y, hy, hyk⟩ := ih (dedupKey s :: seen) x hx
            (by simp [hkey, hnot])
          exact ⟨y, List.mem_cons_of_mem _ hy, hyk⟩

theorem dedupAux_sublist :
    ∀ (l : List Song) (seen : List (List Char)), (dedupAux seen l).Sublist l := by
  intro l
  induction l with
  | nil => intro seen; exact List.Sublist.refl []
  | cons s rest ih =>
    intro seen
    by_cases hm : dedupKey s ∈ seen
    · rw [dedupAux, if_pos hm]
      exact (ih seen).cons s
    · rw [dedupAux, if_neg hm]
      exact (ih (dedupKey s :: seen)).cons₂ s

/-- Claim C6 (counterexample): the dedup key is the single string
`lower(title) + "_" + lower(artist)`, so the distinct tracks
(title `"a_b"`, artist `"c"`) and (title `"a"`, artist `"b_c"`) collapse into
one result even though their titles differ — the claimed "collapse iff equal
titles and equal artists" fails in the only-if direction. -/
theorem dedupClaimCounterexample :
    dedupSongs [{ id := "1", title := "a_b", artist := "c" },
        { id := "2", title := "a", artist := "b_c" }]
      = [{ id := "1", title := "a_b", artist := "c" }]
    ∧ lowerStr ({ id := "1", title := "a_b", artist := "c" : Song }).title
        ≠ lowerStr ({ id := "2", title := "a", artist := "b_c" : Song }).title := by
  decide

/-- Claim C6 (amended): two tracks collapse during aggregation iff the
strings `lower(title) + "_" + lower(artist)` coincide (equality of title and
artist case-insensitively is sufficient but not necessary, since the
underscore join can identify distinct pairs); the first occurrence in input
order is the one kept.  Formally: the dedup stage keeps the head and
recursively drops exactly the later entries with the head's key; output keys
are pairwise distinct; every input track is represented by an output track
with its key; and the output is an order-preserving sublist of the input. -/
theorem dedupKeyTheorem :
    (∀ (x : Song) (l : List Song),
      dedupSongs (x :: l)
        = x :: dedupSongs (l.filter (fun y => ¬ dedupKey y = dedupKey x)))
    ∧ (∀ l : List Song, ((dedupSongs l).map dedupKey).Nodup)
    ∧ (∀ (l : List Song) (x : Song), x ∈ l →
        ∃ y ∈ dedupSongs l, dedupKey y = dedupKey x)
    ∧ (∀ l : List Song, (dedupSongs l).Sublist l) :=
  ⟨dedupSongs_cons,
   fun l => (dedupAux_key_nodup l []).1,
   fun l x hx => dedupAux_exists_key l [] x hx (by simp),
   fun l => dedupAux_sublist l []⟩

/-- Claim C6 (witness): concrete instantiation — deduplicating a two-element
list whose entries share the key keeps exactly the first. -/
theorem dedupKeyWitness :
    dedupSongs [{ id := "1", title := "Song", artist := "X" },
        { id := "2", title := "song", artist := "x" }]
      = { id := "1", title := "Song", artist := "X" }
          :: dedupSongs (List.filter
            (fun y => ¬ dedupKey y = dedupKey { id := "1", title := "Song", artist := "X" })
            [{ id := "2", title := "song", artist := "x" }])
    ∧ (∃ y ∈ dedupSongs [{ id := "1", title := "Song", artist := "X" },
          { id := "2", title := "song", artist := "x" }],
        dedupKey y = dedupKey { id := "2", title := "song", artist := "x" }) :=
  ⟨dedupKeyTheorem.1 { id := "1", title := "Song", artist := "X" }
      [{ id := "2", title := "song", artist := "x" }],
   dedupKeyTheorem.2.2.1 [{ id := "1", title := "Song", artist := "X" },
      { id := "2", title := "song", artist := "x" }]
      { id := "2", title := "song", artist := "x" }
      (by decide)⟩

/-! ### Ranking lemmas (claim C7) -/

theorem charsLead_refl (l : List Char) : charsLead l l = true := by
  induction l with
  | nil => rfl
  | cons a as ih => simp [charsLead, ih]

theorem charsHas_self (l : List Char) : charsHas l l = true := by
  cases l with
  | nil => rfl
  | cons b bs => simp [charsHas, charsLead_refl]

theorem platformScore_bounds (p : String) :
    5 ≤ platformScore p ∧ platformScore p ≤ 20 := by
  unfold platformScore defaultPlatformPriority
  by_cases h1 : (p == "bilibili") = true
  · simp [List.lookup, h1]
  · by_cases h2 : (p == "netease") = true
    · simp [List.lookup, h1, h2]
    · by_cases h3 : (p == "local") = true
      · simp [List.lookup, h1, h2, h3]
      · by_cases h4 : (p == "default") = true
        · simp [List.lookup, h1, h2, h3, h4]
        · simp [List.lookup, h1, h2, h3, h4]

theorem specScoreSong_eq (query : String) (s : Song) :
    specScoreSong query s
      = scoreSong query s + (if lowerStr s.title = lowerStr query then 50 else 0) := by
  unfold specScoreSong scoreSong
  by_cases hx : lowerStr s.title = lowerStr query
  · have hhas : charsHas (lowerStr query) (lowerStr s.title) = true := by
      rw [hx]; exact charsHas_self _
    rw [if_pos hx, if_pos hx, if_pos hx, hhas]
    simp
    omega
  · rw [if_neg hx, if_neg hx, if_neg hx]
    omega

theorem scoreSong_le_of_not_exact (query : String) (s : Song)
    (h : ¬ lowerStr s.title = lowerStr query) : scoreSong query s ≤ 100 := by
  unfold scoreSong
  rw [if_neg h]
  have hb := (platformScore_bounds s.platform).2
  by_cases h1 : charsHas (lowerStr query) (lowerStr s.title) = true
  · rw [if_pos h1]
    by_cases h2 : charsHas (lowerStr query) (lowerStr s.artist) = true
    · rw [if_pos h2]; omega
    · rw [if_neg h2]; omega
  · rw [if_neg h1]
    by_cases h2 : charsHas (lowerStr query) (lowerStr s.artist) = true
    · rw [if_pos h2]; omega
    · rw [if_neg h2]; omega

theorem scoreSong_ge_of_exact (query : String) (s : Song)
    (h : lowerStr s.title = lowerStr query) : 105 ≤ scoreSong query s := by
  unfold scoreSong
  rw [if_pos h]
  have hb := (platformScore_bounds s.platform).1
  by_cases h2 : charsHas (lowerStr query) (lowerStr s.artist) = true
  · rw [if_pos h2]; omega
  · rw [if_neg h2]; omega

theorem specScore_mono (query : String) (a b : Song)
    (h : scoreSong query b ≤ scoreSong query a) :
    specScoreSong query b ≤ specScoreSong query a := by
  rw [specScoreSong_eq, specScoreSong_eq]
  by_cases ha : lowerStr a.title = lowerStr query
  · by_cases hb : lowerStr b.title = lowerStr query
    · rw [if_pos ha, if_pos hb]; omega
    · rw [if_pos ha, if_neg hb]; omega
  · by_cases hb : lowerStr b.title = lowerStr query
    · exfalso
      have h1 := scoreSong_ge_of_exact query b hb
      have h2 := scoreSong_le_of_not_exact query a ha
      omega
    · rw [if_neg ha, if_neg hb]; omega

theorem filter_sInsert_score (query : String) (n : Nat) (x : Song) :
    ∀ l : List Song,
      (sInsert (fun a b => decide (scoreSong query b ≤ scoreSong query a)) x l).filter
          (fun s => scoreSong query s == n)
        = if scoreSong query x == n then
            x :: l.filter (fun s => scoreSong query s == n)
          else l.filter (fun s => scoreSong query s == n) := by
  intro l
  induction l with
  | nil =>
    rw [sInsert]
    by_cases hx : (scoreSong query x == n) = true
    · rw [if_pos hx, List.filter_cons, if_pos hx]
    · rw [if_neg hx, List.filter_cons, if_neg hx]
  | cons y ys ih =>
    by_cases hr : (decide (scoreSong query y ≤ scoreSong query x)) = true
    · rw [sInsert, if_pos hr, List.filter_cons]
    · rw [sInsert, if_neg hr, List.filter_cons]
      have hlt : scoreSong query x < scoreSong query y := by
        simp only [decide_eq_true_eq] at hr
        omega
      by_cases hx : (scoreSong query x == n) = true
      · have hxn : scoreSong query x = n := by simpa using hx
        have hy : (scoreSong query y == n) = false := by
          simp only [beq_eq_false_iff_ne, ne_eq]
          omega
        simp only [hy, Bool.false_eq_true, if_false, ih, hx, if_true,
          List.filter_cons]
      · simp only [ih, hx, Bool.false_eq_true, if_false, List.filter_cons]

theorem filter_sSort_score (query : String) (n : Nat) :
    ∀ l : List Song,
      (sSort (fun a b => decide (scoreSong query b ≤ scoreSong query a)) l).filter
          (fun s => scoreSong query s == n)
        = l.filter (fun s => scoreSong query s == n) := by
  intro l
  induction l with
  | nil => rfl
  | cons x xs ih =>
    rw [sSort, filter_sInsert_score, ih, List.filter_cons]

/-- Claim C7: for every input list and query (default source-priority map:
bilibili +20, netease +15, local +10, otherwise +5), the output of
`_rank_and_deduplicate` is ordered by descending `score_song`; the same order
is descending also for the claim's additive reading of the score table
(`specScoreSong`); and for every score value the tracks carrying it appear in
exactly their order in the deduplicated input (Python's `sorted` is stable,
also with `reverse=True`). -/
theorem rankOrderingTheorem (results : List Song) (query : String) :
    (rankAndDeduplicate results query).Pairwise
        (fun a b => scoreSong query b ≤ scoreSong query a)
    ∧ (rankAndDeduplicate results query).Pairwise
        (fun a b => specScoreSong query b ≤ specScoreSong query a)
    ∧ ∀ n : Nat,
        (rankAndDeduplicate results query).filter (fun s => scoreSong query s == n)
          = (dedupSongs results).filter (fun s => scoreSong query s == n) := by
  have htotal : ∀ a b : Song,
      (decide (scoreSong query b ≤ scoreSong query a)) = true
      ∨ (decide (scoreSong query a ≤ scoreSong query b)) = true := by
    intro a b
    simp only [decide_eq_true_eq]
    omega
  have htrans : ∀ a b c : Song,
      (decide (scoreSong query b ≤ scoreSong query a)) = true →
      (decide (scoreSong query c ≤ scoreSong query b)) = true →
      (decide (scoreSong query c ≤ scoreSong query a)) = true := by
    intro a b c h1 h2
    simp only [decide_eq_true_eq] at h1 h2 ⊢
    omega
  by_cases hempty : results.isEmpty
  · rw [rankAndDeduplicate, if_pos hempty]
    have hnil : results = [] := List.isEmpty_iff.mp hempty
    subst hnil
    exact ⟨List.Pairwise.nil, List.Pairwise.nil, fun n => rfl⟩
  · rw [rankAndDeduplicate, if_neg hempty]
    have hsorted := pairwise_sSort (fun a b => decide (scoreSong query b ≤ scoreSong query a))
      htotal htrans (dedupSongs results)
    have hp1 : (sSort (fun a b => decide (scoreSong query b ≤ scoreSong query a))
        (dedupSongs results)).Pairwise (fun a b => scoreSong query b ≤ scoreSong query a) :=
      hsorted.imp (fun h => by simpa using h)
    refine ⟨hp1, hp1.imp (fun h => specScore_mono query _ _ h), ?_⟩
    intro n
    exact filter_sSort_score query n (dedupSongs results)

/-! ### Per-plugin limit (claim C8) -/

/-- Claim C8 (counterexample): with the three enabled built-in plugins and a
requested limit of 10, each plugin is dispatched with a per-plugin limit of
`max(1, 10 // 3) = 3`, not `ceil(10 / 3) = 4` as the claim states. -/
theorem perPluginLimitClaimCounterexample :
    ∃ pr ∈ searchSongDispatch builtinPlugins 10,
      ¬ pr.2 = specCeilDiv 10 (enabledCount builtinPlugins) := by
  decide

/-- Claim C8 (amended): with `enabled_count ≥ 1` and `limit ≥ 1`, every
enabled plugin is dispatched with per-plugin limit
`max(1, ⌊limit / enabled_count⌋)` (floor division, not ceiling); this
coincides with `ceil(limit / enabled_count)` exactly when `enabled_count`
divides `limit` or `limit < enabled_count`. -/
theorem perPluginLimitTheorem (ps : List PluginInfo) (limit : Nat)
    (hcnt : 1 ≤ enabledCount ps) (hlim : 1 ≤ limit) :
    (∀ pr ∈ searchSongDispatch ps limit, pr.2 = max 1 (limit / enabledCount ps))
    ∧ (max 1 (limit / enabledCount ps) = specCeilDiv limit (enabledCount ps)
        ↔ (limit % enabledCount ps = 0 ∨ limit < enabledCount ps)) := by
  constructor
  · intro pr hpr
    obtain ⟨p, _, rfl⟩ := List.mem_map.mp hpr
    rfl
  · have hn : 0 < enabledCount ps := hcnt
    have hdm := Nat.div_add_mod limit (enabledCount ps)
    have hmlt : limit % enabledCount ps < enabledCount ps := Nat.mod_lt _ hn
    have hceil : specCeilDiv limit (enabledCount ps)
        = if limit % enabledCount ps = 0 then limit / enabledCount ps
          else limit / enabledCount ps + 1 := by
      unfold specCeilDiv
      by_cases hr0 : limit % enabledCount ps = 0
      · rw [if_pos hr0]
        have hsplit : limit + enabledCount ps - 1
            = enabledCount ps * (limit / enabledCount ps) + (enabledCount ps - 1) := by
          omega
        rw [hsplit, Nat.mul_add_div hn,
          Nat.div_eq_of_lt (show enabledCount ps - 1 < enabledCount ps by omega),
          Nat.add_zero]
      · rw [if_neg hr0]
        have hms : enabledCount ps * (limit / enabledCount ps + 1)
            = enabledCount ps * (limit / enabledCount ps) + enabledCount ps := by
          ring
        have hsplit : limit + enabledCount ps - 1
            = enabledCount ps * (limit / enabledCount ps + 1)
              + (limit % enabledCount ps - 1) := by
          omega
        rw [hsplit, Nat.mul_add_div hn,
          Nat.div_eq_of_lt (show limit % enabledCount ps - 1 < enabledCount ps by omega),
          Nat.add_zero]
    have hdiv0 : limit / enabledCount ps = 0 ↔ limit < enabledCount ps :=
      Nat.div_eq_zero_iff hn
    have hmax : max 1 (limit / enabledCount ps)
        = if limit / enabledCount ps = 0 then 1 else limit / enabledCount ps := by
      by_cases hq : limit / enabledCount ps = 0
      · rw [if_pos hq, hq]
        exact Nat.max_eq_left (by omega)
      · rw [if_neg hq]
        exact Nat.max_eq_right (Nat.one_le_iff_ne_zero.mpr hq)
    rw [hceil, hmax]
    constructor
    · intro heq
      by_cases hr0 : limit % enabledCount ps = 0
      · exact Or.inl hr0
      · rw [if_neg hr0] at heq
        by_cases hq : limit / enabledCount ps = 0
        · exact Or.inr (hdiv0.mp hq)
        · rw [if_neg hq] at heq
          omega
    · intro hor
      rcases hor with hr0 | hlt
      · rw [if_pos hr0]
        have hq : ¬ limit / enabledCount ps = 0 := by
          intro hq0
          rw [hq0] at hdm
          omega
        rw [if_neg hq]
      · have hq : limit / enabledCount ps = 0 := hdiv0.mpr hlt
        have hr0 : ¬ limit % enabledCount ps = 0 := by
          intro h0
          rw [hq] at hdm
          omega
        rw [if_neg hr0, if_pos hq, hq]

/-- Claim C8 (witness): the amended theorem applied to the three built-in
plugins with limit 9 (3 divides 9, so floor and ceiling agree there). -/
theorem perPluginLimitWitness :
    (∀ pr ∈ searchSongDispatch builtinPlugins 9,
        pr.2 = max 1 (9 / enabledCount builtinPlugins))
    ∧ (max 1 (9 / enabledCount builtinPlugins)
          = specCeilDiv 9 (enabledCount builtinPlugins)
        ↔ (9 % enabledCount builtinPlugins = 0 ∨ 9 < enabledCount builtinPlugins)) :=
  perPluginLimitTheorem builtinPlugins 9 (by decide) (by decide)

/-! ## Playlist importer (`src/core/playlist_importer.py`)

Exported documents always carry every key their exporter writes, so the
document shapes are typed records; `dict.get(key, default)` is plain field
access on them (the defaults of `_parse_simple_playlist` and
`_parse_musicfree_backup` only fire for absent keys). -/

/-- The dictionary written by `Song.to_dict` (all eleven keys). -/
structure SongDoc where
  id : String
  title : String
  artist : String
  album : String
  duration : Int
  platform : String
  artwork : String
  url : String
  tags : List String
  date : String
  extra : List (String × EVal)
deriving DecidableEq

/-- Source `Song.to_dict`. -/
def songToDict (s : Song) : SongDoc :=
  ⟨s.id, s.title, s.artist, s.album, s.duration, s.platform, s.artwork,
   s.url, s.tags, s.date, s.extra⟩

/-- Source `Song.from_dict` (including the `__post_init__` id fallback). -/
def songFromDict (d : SongDoc) : Song :=
  mkSong ⟨d.id, d.title, d.artist, d.album, d.duration, d.platform, d.artwork,
    d.url, d.tags, d.date, d.extra⟩

/-- The dictionary written by `Playlist.to_dict` (the simple-playlist
format). -/
structure SimpleDoc where
  id : String
  name : String
  description : String
  songs : List SongDoc
  creator : String
  cover : String
  tags : List String
  created_at : String
  updated_at : String
  extra : List (String × EVal)
deriving DecidableEq

/-- Source `Playlist.to_dict`, used by `export_to_file(..., 'simple_playlist')`. -/
def playlistToDict (p : Playlist) : SimpleDoc :=
  ⟨p.id, p.name, p.description, p.songs.map songToDict, p.creator, p.cover,
   p.tags, p.created_at, p.updated_at, p.extra⟩

/-- Source `PlaylistImporter._parse_simple_playlist`: build the playlist header from
the document (note: `created_at`, `updated_at` and the playlist-level `extra`
are NOT read), then `add_song` each parsed song. -/
def parseSimplePlaylist (d : SimpleDoc) (source : String) : Playlist :=
  let base := mkPlaylist
    { id := d.id, name := d.name, description := d.description,
      creator := d.creator, cover := d.cover, tags := d.tags }
  d.songs.foldl (fun pl sd => addSong pl (songFromDict sd)) base

/-- A sheet of a MusicFree backup document. -/
structure MFSheet where
  id : String
  platform : String
  musicList : List MFItem
deriving DecidableEq

/-- A MusicFree backup document (`{"musicSheets": [...]}`). -/
structure MFDoc where
  musicSheets : List MFSheet
deriving DecidableEq

/-- String-valued lookup in an `extra` mapping (Python `item.get(k)` being a
nonempty string is what the importer tests). -/
def lookupStr (k : String) (extra : List (String × EVal)) : Option String :=
  match extra.lookup k with
  | some (EVal.str v) => some v
  | _ => none

/-- One item of `_convert_to_musicfree_format`: the base keys from the song,
updated with `song.extra` (only the `aid`/`bvid` merged keys are modelled). -/
def songToMFItem (s : Song) : MFItem :=
  { id := s.id, title := s.title, artist := s.artist, album := s.album,
    duration := s.duration, platform := s.platform, artwork := s.artwork,
    tags := s.tags, date := s.date, url := s.url,
    aid := lookupStr "aid" s.extra, bvid := lookupStr "bvid" s.extra }

/-- Source `PlaylistImporter._convert_to_musicfree_format`: one sheet whose `id` is
the playlist id, whose `platform` is the playlist NAME, and whose `musicList`
holds the converted songs. -/
def convertToMusicfreeFormat (p : Playlist) : MFDoc :=
  { musicSheets :=
      [{ id := p.id, platform := p.name, musicList := p.songs.map songToMFItem }] }

/-- Python truthiness of `item.get('bvid')`: present and nonempty. -/
def truthyOptStr : Option String → Bool
  | some v => decide (v ≠ "")
  | none => false

/-- Value of `item.get(k)` as recorded in the reimported `extra`
(`None` when absent). -/
def optToEVal : Option String → EVal
  | some v => EVal.str v
  | none => EVal.null

/-- Source `PlaylistImporter._parse_musicfree_song`: rebuild a bilibili URL from
`bvid` when `platform == 'bilibili'` and `bvid` is truthy, else take the
item's `url` if truthy; record `aid`, `bvid` and the `original_item` in
`extra`. -/
def parseMusicfreeSong (item : MFItem) : Song :=
  mkSong
    { id := item.id, title := item.title, artist := item.artist,
      album := item.album, duration := item.duration, platform := item.platform,
      artwork := item.artwork,
      url := if item.platform == "bilibili" && truthyOptStr item.bvid then
          "https://www.bilibili.com/video/" ++ item.bvid.getD ""
        else if item.url ≠ "" then item.url else "",
      tags := item.tags, date := item.date,
      extra := [("aid", optToEVal item.aid), ("bvid", optToEVal item.bvid),
        ("original_item", EVal.item item)] }

/-- Source `PlaylistImporter._parse_musicfree_backup`: take the FIRST sheet (or fail
when there is none); the playlist name is the sheet's `platform` field, the
description and creator are fixed strings; `add_song` each parsed song. -/
def parseMusicfreeBackup (d : MFDoc) (source : String) : Option Playlist :=
  match d.musicSheets with
  | [] => none
  | sheet :: _ =>
    let base := mkPlaylist
      { id := sheet.id, name := sheet.platform,
        description := "Imported from " ++ source, creator := "BotPlayer" }
    some (sheet.musicList.foldl (fun pl item => addSong pl (parseMusicfreeSong item)) base)

/-- A playlist document of one of the two formats the claims concern.
`_detect_format` keys on the presence of `musicSheets` (MusicFree backup)
versus `name` + `songs` (simple playlist); the two shapes are disjoint, so
detection is the constructor tag here. -/
inductive PlaylistDoc where
  | simple (d : SimpleDoc)
  | musicfree (d : MFDoc)
deriving DecidableEq

/-- Source `PlaylistImporter._parse_playlist` restricted to the two formats. -/
def parsePlaylistDoc (doc : PlaylistDoc) (source : String) : Option Playlist :=
  match doc with
  | .simple d => some (parseSimplePlaylist d source)
  | .musicfree d => parseMusicfreeBackup d source

/-! ## URL safety gate (`PlaylistImporter._is_safe_url` / `import_from_url`) -/

/-- The result of Python `urlparse(url)` as far as `_is_safe_url` reads it
(`urlparse` lowercases the hostname). -/
structure ParsedUrl where
  raw : String
  scheme : String
  hostname : Option String
deriving DecidableEq

/-- Default `allowed_domains` of `PlaylistImporter.__init__`. -/
def defaultAllowedDomains : List String :=
  ["github.com", "raw.githubusercontent.com", "gist.github.com",
   "gist.githubusercontent.com", "gitlab.com", "cdn.jsdelivr.net", "unpkg.com"]

/-- Source `PlaylistImporter._is_safe_url`: require scheme `https`, a hostname, and
the hostname equal to an allow-listed domain or ending with `"." + domain`. -/
def isSafeUrl (allowed : List String) (u : ParsedUrl) : Bool :=
  if u.scheme != "https" then false
  else
    match u.hostname with
    | none => false
    | some host => allowed.any (fun d => host == d || charsEnd ('.' :: d.data) host.data)

/-- Source `PlaylistImporter.import_from_url`: reject unsafe URLs before any network
access; otherwise invoke `_download_json` (whose outcome is the `fetch`
parameter) and parse.  The boolean records whether `_download_json` was
invoked. -/
def importFromUrl (allowed : List String) (u : ParsedUrl)
    (fetch : Option PlaylistDoc) : Option Playlist × Bool :=
  if isSafeUrl allowed u then
    match fetch with
    | none => (none, true)
    | some doc => (parsePlaylistDoc doc u.raw, true)
  else (none, false)

/-- Claim C5: a URL whose scheme is not `https`, or whose host neither equals
nor is a subdomain of an allow-list entry, is rejected by `import_from_url`
with no playlist and no network access (the result does not depend on what a
fetch would return and `_download_json` is not invoked); for an `https` URL
whose host equals or is a subdomain of an allow-list entry the fetch is
attempted.  The safety predicate is exactly the claimed one over the default
allow-list. -/
theorem importUrlSafetyTheorem (u : ParsedUrl) :
    (isSafeUrl defaultAllowedDomains u = false →
      ∀ fetch, importFromUrl defaultAllowedDomains u fetch = (none, false))
    ∧ (isSafeUrl defaultAllowedDomains u = true →
      ∀ fetch, (importFromUrl defaultAllowedDomains u fetch).2 = true)
    ∧ (isSafeUrl defaultAllowedDomains u = true ↔
        (u.scheme = "https" ∧ ∃ host, u.hostname = some host ∧
          ∃ d ∈ defaultAllowedDomains,
            host = d ∨ charsEnd ('.' :: d.data) host.data = true)) := by
  refine ⟨?_, ?_, ?_⟩
  · intro h fetch
    unfold importFromUrl
    rw [h]
    simp
  · intro h fetch
    unfold importFromUrl
    rw [h]
    simp only [if_true]
    cases fetch <;> rfl
  · unfold isSafeUrl
    by_cases hs : (u.scheme != "https") = true
    · rw [if_pos hs]
      simp only [bne_iff_ne, ne_eq] at hs
      constructor
      · intro hc
        cases hc
      · rintro ⟨hc, _⟩
        exact absurd hc hs
    · rw [if_neg hs]
      have hscheme : u.scheme = "https" := by
        simpa using hs
      cases hh : u.hostname with
      | none =>
        simp [hh]
      | some host =>
        simp only [hscheme, true_and]
        constructor
        · intro hany
          obtain ⟨d, hd, hcond⟩ := List.any_eq_true.mp hany
          refine ⟨host, rfl, d, hd, ?_⟩
          rcases Bool.or_eq_true_iff.mp hcond with hc | hc
          · exact Or.inl (by simpa using hc)
          · exact Or.inr hc
        · rintro ⟨host', hh', d, hd, hcond⟩
          injection hh' with hh'
          subst hh'
          apply List.any_eq_true.mpr
          refine ⟨d, hd, ?_⟩
          rcases hcond with hc | hc
          · exact Bool.or_eq_true_iff.mpr (Or.inl (by simpa using hc))
          · exact Bool.or_eq_true_iff.mpr (Or.inr hc)

/-- Claim C5 (witness): `http://example.com/list.json` is rejected (scheme),
`https://evil.example.com/list.json` is rejected (host), and
`https://raw.githubusercontent.com/u/r/main/p.json` reaches the fetch. -/
theorem importUrlSafetyWitness :
    (importFromUrl defaultAllowedDomains
        ⟨"http://example.com/list.json", "http", some "example.com"⟩ none)
      = (none, false)
    ∧ importFromUrl defaultAllowedDomains
        ⟨"https://evil.example.com/list.json", "https", some "evil.example.com"⟩ none
      = (none, false)
    ∧ (importFromUrl defaultAllowedDomains
        ⟨"https://raw.githubusercontent.com/u/r/main/p.json", "https",
          some "raw.githubusercontent.com"⟩ none).2 = true :=
  ⟨(importUrlSafetyTheorem _).1 (by decide) none,
   (importUrlSafetyTheorem _).1 (by decide) none,
   (importUrlSafetyTheorem _).2.1 (by decide) none⟩

/-! ### Folding `add_song` (claims C9 and C10) -/

theorem addSong_of_mem (p : Playlist) (s : Song) (h : s ∈ p.songs) :
    addSong p s = p := by
  unfold addSong
  rw [if_pos h]

theorem addSong_of_not_mem (p : Playlist) (s : Song) (h : ¬ s ∈ p.songs) :
    addSong p s = { p with songs := p.songs ++ [s] } := by
  unfold addSong
  rw [if_neg h]

theorem foldl_addSong_nodup {α : Type} (f : α → Song) :
    ∀ (l : List α) (pl : Playlist),
      (pl.songs ++ l.map f).Nodup →
      l.foldl (fun acc x => addSong acc (f x)) pl
        = { pl with songs := pl.songs ++ l.map f } := by
  intro l
  induction l with
  | nil =>
    intro pl _
    simp
  | cons x xs ih =>
    intro pl h
    have hassoc : pl.songs ++ (x :: xs).map f = (pl.songs ++ [f x]) ++ xs.map f := by
      simp
    have hx : ¬ f x ∈ pl.songs := by
      rw [List.map_cons] at h
      rcases List.nodup_append.mp h with ⟨_, _, hdis⟩
      intro hc
      exact hdis hc (List.mem_cons_self _ _)
    rw [List.foldl_cons, addSong_of_not_mem pl (f x) hx]
    rw [hassoc] at h
    rw [ih { pl with songs := pl.songs ++ [f x] } h]
    simp

theorem foldl_addSong_songs_nodup {α : Type} (f : α → Song) :
    ∀ (l : List α) (pl : Playlist),
      pl.songs.Nodup →
      (l.foldl (fun acc x => addSong acc (f x)) pl).songs.Nodup := by
  intro l
  induction l with
  | nil =>
    intro pl h
    exact h
  | cons x xs ih =>
    intro pl h
    rw [List.foldl_cons]
    apply ih
    unfold addSong
    by_cases hm : f x ∈ pl.songs
    · rw [if_pos hm]
      exact h
    · rw [if_neg hm]
      simp only [List.nodup_append, List.nodup_cons, List.nodup_nil, and_true,
        List.not_mem_nil, not_false_iff, true_and]
      exact ⟨h, by simpa using hm⟩

theorem foldl_addSong_mem_mono {α : Type} (f : α → Song) :
    ∀ (l : List α) (pl : Playlist) (s : Song),
      s ∈ pl.songs → s ∈ (l.foldl (fun acc x => addSong acc (f x)) pl).songs := by
  intro l
  induction l with
  | nil =>
    intro pl s h
    exact h
  | cons x xs ih =>
    intro pl s h
    rw [List.foldl_cons]
    apply ih
    unfold addSong
    by_cases hm : f x ∈ pl.songs
    · rw [if_pos hm]
      exact h
    · rw [if_neg hm]
      exact List.mem_append_left _ h

theorem foldl_addSong_mem {α : Type} (f : α → Song) :
    ∀ (l : List α) (pl : Playlist) (x : α),
      x ∈ l → f x ∈ (l.foldl (fun acc y => addSong acc (f y)) pl).songs := by
  intro l
  induction l with
  | nil =>
    intro pl x h
    cases h
  | cons y ys ih =>
    intro pl x h
    rw [List.foldl_cons]
    rcases List.mem_cons.mp h with heq | h
    · apply foldl_addSong_mem_mono
      unfold addSong
      by_cases hm : f y ∈ pl.songs
      · rw [if_pos hm]
        exact heq ▸ hm
      · rw [if_neg hm]
        exact heq ▸ List.mem_append_right _ (List.mem_cons_self _ _)
    · exact ih _ x h

theorem foldl_addSong_congr {α : Type} (g f : α → Song) :
    ∀ (l : List α) (pl : Playlist), (∀ x ∈ l, g x = f x) →
      l.foldl (fun acc x => addSong acc (g x)) pl
        = l.foldl (fun acc x => addSong acc (f x)) pl := by
  intro l
  induction l with
  | nil =>
    intro pl _
    rfl
  | cons x xs ih =>
    intro pl h
    rw [List.foldl_cons, List.foldl_cons, h x (List.mem_cons_self _ _)]
    exact ih _ (fun y hy => h y (List.mem_cons_of_mem _ hy))

/-- Claim C10: `add_song` leaves the playlist unchanged when an equal song is
already present; it preserves having no duplicate songs; consequently the
output song list of the importer is duplicate-free, every listed track is present
in it, and a track listed twice in a document appears exactly once. -/
theorem addSongDedupTheorem :
    (∀ (p : Playlist) (s : Song), s ∈ p.songs → addSong p s = p)
    ∧ (∀ (p : Playlist) (s : Song), p.songs.Nodup → (addSong p s).songs.Nodup)
    ∧ (∀ (d : SimpleDoc) (source : String), (parseSimplePlaylist d source).songs.Nodup)
    ∧ (∀ (d : SimpleDoc) (source : String) (sd : SongDoc), sd ∈ d.songs →
        songFromDict sd ∈ (parseSimplePlaylist d source).songs)
    ∧ (∀ (d : SimpleDoc) (source : String) (sd : SongDoc), sd ∈ d.songs →
        (parseSimplePlaylist d source).songs.count (songFromDict sd) = 1) := by
  have h2 : ∀ (p : Playlist) (s : Song), p.songs.Nodup → (addSong p s).songs.Nodup := by
    intro p s h
    unfold addSong
    by_cases hm : s ∈ p.songs
    · rw [if_pos hm]
      exact h
    · rw [if_neg hm]
      simp only [List.nodup_append, List.nodup_cons, List.nodup_nil, and_true,
        List.not_mem_nil, not_false_iff, true_and]
      exact ⟨h, by simpa using hm⟩
  have h3 : ∀ (d : SimpleDoc) (source : String),
      (parseSimplePlaylist d source).songs.Nodup := by
    intro d source
    unfold parseSimplePlaylist
    apply foldl_addSong_songs_nodup
    unfold mkPlaylist
    split <;> exact List.nodup_nil
  have h4 : ∀ (d : SimpleDoc) (source : String) (sd : SongDoc), sd ∈ d.songs →
      songFromDict sd ∈ (parseSimplePlaylist d source).songs := by
    intro d source sd hsd
    unfold parseSimplePlaylist
    exact foldl_addSong_mem songFromDict d.songs _ sd hsd
  refine ⟨addSong_of_mem, h2, h3, h4, ?_⟩
  intro d source sd hsd
  exact List.count_eq_one_of_mem (h3 d source) (h4 d source sd hsd)

/-! ### Round trips (claim C9) -/

theorem songFromDict_toDict (s : Song) (hid : s.id ≠ "") :
    songFromDict (songToDict s) = s := by
  unfold songFromDict songToDict mkSong
  rw [if_neg hid]

theorem mkPlaylist_of_ne (p : Playlist) (hid : p.id ≠ "") : mkPlaylist p = p := by
  unfold mkPlaylist
  rw [if_neg hid]

/-- The song produced by reimporting an exported MusicFree item of a song
with empty `extra`: every field survives except `extra`, which records
`aid = None`, `bvid = None` and the `original_item`. -/
def reimportMusicfree (s : Song) : Song :=
  { s with extra := [("aid", EVal.null), ("bvid", EVal.null),
      ("original_item", EVal.item (songToMFItem s))] }

theorem parseMusicfreeSong_toItem (s : Song) (hid : s.id ≠ "")
    (hex : s.extra = []) :
    parseMusicfreeSong (songToMFItem s) = reimportMusicfree s := by
  have hitem : songToMFItem s
      = { id := s.id, title := s.title, artist := s.artist, album := s.album,
          duration := s.duration, platform := s.platform, artwork := s.artwork,
          tags := s.tags, date := s.date, url := s.url, aid := none, bvid := none } := by
    unfold songToMFItem lookupStr
    rw [hex]
    rfl
  unfold parseMusicfreeSong reimportMusicfree
  rw [hitem]
  unfold mkSong
  dsimp only
  rw [if_neg hid]
  have hcond : ((s.platform == "bilibili") && truthyOptStr none) = false := by
    simp [truthyOptStr]
  rw [hcond]
  simp only [Bool.false_eq_true, if_false]
  dsimp only [optToEVal]
  by_cases hu : s.url = ""
  · rw [if_neg (by simpa using hu), hu]
  · rw [if_pos (by simpa using hu)]

theorem reimportMusicfree_inj (x y : Song) (hx : x.extra = []) (hy : y.extra = [])
    (h : reimportMusicfree x = reimportMusicfree y) : x = y := by
  unfold reimportMusicfree at h
  obtain ⟨xi, xt, xa, xal, xd, xp, xaw, xu, xtg, xdt, xe⟩ := x
  obtain ⟨yi, yt, ya, yal, yd, yp, yaw, yu, ytg, ydt, ye⟩ := y
  simp only at hx hy
  subst hx
  subst hy
  simp only [Song.mk.injEq] at h ⊢
  exact ⟨h.1, h.2.1, h.2.2.1, h.2.2.2.1, h.2.2.2.2.1, h.2.2.2.2.2.1,
    h.2.2.2.2.2.2.1, h.2.2.2.2.2.2.2.1, h.2.2.2.2.2.2.2.2.1,
    h.2.2.2.2.2.2.2.2.2.1, trivial⟩

/-- Claim C9 (counterexample): exporting then importing a simple playlist
whose `created_at` is `"2024-01-01"` yields a playlist with `created_at = ""`:
`_parse_simple_playlist` never reads `created_at`, so import(export(p)) ≠ p. -/
theorem roundTripClaimCounterexample :
    parseSimplePlaylist
        (playlistToDict { id := "p", name := "n", created_at := "2024-01-01" }) "src"
      ≠ { id := "p", name := "n", created_at := "2024-01-01" } := by
  decide

/-- Claim C9 (amended): the round trips are not the identity.  For a playlist
with a nonempty id, duplicate-free songs with nonempty ids and empty extras,
the import after export in the simple format preserves id, name, description,
creator, cover, tags and the exact song list, but resets `created_at`,
`updated_at` and the playlist-level `extra`; in the MusicFree format it
preserves id, the name (via the sheet's `platform` field) and the track order
with all track fields except `extra`, but replaces the description with
`"Imported from <source>"`, the creator with `"BotPlayer"`, and drops cover
and tags. -/
theorem roundTripTheorem (p : Playlist) (source : String)
    (hid : p.id ≠ "") (hsid : ∀ s ∈ p.songs, s.id ≠ "")
    (hnodup : p.songs.Nodup) (hextra : ∀ s ∈ p.songs, s.extra = []) :
    parseSimplePlaylist (playlistToDict p) source
      = { p with created_at := "", updated_at := "", extra := [] }
    ∧ parseMusicfreeBackup (convertToMusicfreeFormat p) source
      = some
          { id := p.id, name := p.name,
            description := "Imported from " ++ source, creator := "BotPlayer",
            cover := "", tags := [], created_at := "", updated_at := "",
            extra := [], songs := p.songs.map reimportMusicfree } := by
  constructor
  · unfold parseSimplePlaylist playlistToDict
    dsimp only
    rw [List.foldl_map]
    rw [foldl_addSong_congr (fun s => songFromDict (songToDict s)) (fun s => s)
      p.songs _ (fun s hs => songFromDict_toDict s (hsid s hs))]
    rw [mkPlaylist_of_ne
      { id := p.id, name := p.name, description := p.description,
        creator := p.creator, cover := p.cover, tags := p.tags } hid]
    have hfold := foldl_addSong_nodup (fun s => s) p.songs
      { id := p.id, name := p.name, description := p.description,
        creator := p.creator, cover := p.cover, tags := p.tags }
      (by simpa using hnodup)
    simpa using hfold
  · unfold parseMusicfreeBackup convertToMusicfreeFormat
    dsimp only
    congr 1
    rw [List.foldl_map]
    rw [foldl_addSong_congr (fun s => parseMusicfreeSong (songToMFItem s))
      reimportMusicfree p.songs _
      (fun s hs => parseMusicfreeSong_toItem s (hsid s hs) (hextra s hs))]
    rw [mkPlaylist_of_ne
      { id := p.id, name := p.name,
        description := "Imported from " ++ source, creator := "BotPlayer" } hid]
    have hmapnodup : (p.songs.map reimportMusicfree).Nodup :=
      hnodup.map_on (fun x hx y hy hxy =>
        reimportMusicfree_inj x y (hextra x hx) (hextra y hy) hxy)
    have hfold := foldl_addSong_nodup reimportMusicfree p.songs
      { id := p.id, name := p.name,
        description := "Imported from " ++ source, creator := "BotPlayer" }
      (by simpa using hmapnodup)
    simpa using hfold

/-- A concrete one-song playlist used to instantiate the round-trip
theorem. -/
def rtPlaylist : Playlist :=
  { id := "p", name := "n", description := "d", creator := "c", cover := "cv",
    tags := ["t"], songs := [{ id := "s", title := "t", artist := "a" }] }

/-- Claim C9 (witness): the amended round-trip equations applied to a
concrete one-song playlist. -/
theorem roundTripWitness :
    parseSimplePlaylist (playlistToDict rtPlaylist) "src"
      = { rtPlaylist with created_at := "", updated_at := "", extra := [] }
    ∧ parseMusicfreeBackup (convertToMusicfreeFormat rtPlaylist) "src"
      = some
          { id := rtPlaylist.id, name := rtPlaylist.name,
            description := "Imported from " ++ "src", creator := "BotPlayer",
            cover := "", tags := [], created_at := "", updated_at := "",
            extra := [], songs := rtPlaylist.songs.map reimportMusicfree } :=
  roundTripTheorem rtPlaylist "src" (by decide) (by decide) (by decide) (by decide)

/-- A sample song for concrete instantiations. -/
def sampleSong : Song :=
  { id := "s", title := "t", artist := "a" }

/-- A sample playlist already containing `sampleSong`. -/
def samplePlaylist : Playlist :=
  { id := "p", name := "n", songs := [sampleSong] }

/-- A simple-playlist document listing `sampleSong` twice. -/
def sampleDupDoc : SimpleDoc :=
  { id := "p", name := "n", description := "", creator := "c", cover := "",
    tags := [], created_at := "", updated_at := "", extra := [],
    songs := [songToDict sampleSong, songToDict sampleSong] }

/-- Claim C10 (witness): adding an already-present song is the identity, and
the import of a document that lists the same track twice yields it exactly
once. -/
theorem addSongDedupWitness :
    addSong samplePlaylist sampleSong = samplePlaylist
    ∧ ((parseSimplePlaylist sampleDupDoc "src").songs.count
        (songFromDict (songToDict sampleSong))) = 1 :=
  ⟨addSongDedupTheorem.1 _ _ (by decide),
   addSongDedupTheorem.2.2.2.2 _ "src" _ (by decide)⟩

end BotPlayer
